import Mathlib

/-!
# Verification of the hippocampus memory engine

A shallow embedding of the retrieval and memory-graph engine (TypeScript
sources under `memory-server/src` and the unnamed parts of the repository),
with theorems settling the frozen claims about signal dynamics, temporal
chronicles, retrieval scoring, deduplication, synapse formation and fact
extraction.

Numeric values (`number` in the source) are modelled as `ℚ`; timestamps
(millisecond epochs produced by `Date.getTime()`) as `ℤ`.  Transcendental
functions of the JavaScript math library (`Math.exp`, `Math.log`,
`Math.sqrt`) are passed as explicit function parameters, with the
properties a theorem needs stated as hypotheses.  Stores are embedded as
pure state-passing functions over a `StoreState`; `generateId()` is
modelled as a counter-based fresh-id supply.
-/

namespace Hippocampus

/-! ## Data model (`engram.types.ts`, `synapse.types.ts`, `chronicle.types.ts`) -/

/-- The six memory strands (`STRANDS` in `engram.types.ts`). -/
inductive Strand where
  | factual
  | experiential
  | procedural
  | preferential
  | relational
  | general
deriving DecidableEq, Repr

/-- `STRANDS` — the list of all strands, in source order. -/
def STRANDS : List Strand :=
  [.factual, .experiential, .procedural, .preferential, .relational, .general]

/-- String form of a strand, as produced by the JSON layer. -/
def Strand.name : Strand → String
  | .factual => "factual"
  | .experiential => "experiential"
  | .procedural => "procedural"
  | .preferential => "preferential"
  | .relational => "relational"
  | .general => "general"

/-- Parse a strand string; `none` for an unknown strand
(`STRANDS.includes(result.strand)` check in the extractor). -/
def strandOfString (s : String) : Option Strand :=
  STRANDS.find? (fun st => st.name = s)

/-- An engram row (`Engram` interface).  `metadata` (a free-form JSON
mapping in the source) is modelled as an association list. -/
structure Engram where
  id : String
  ownerId : String
  content : String
  contentHash : String
  strand : Strand
  tags : List String
  metadata : List (String × String)
  embedding : List ℚ
  signal : ℚ
  pulseRate : ℚ
  accessCount : ℕ
  version : ℕ
  createdAt : ℤ
  updatedAt : ℤ
  lastAccessedAt : ℤ
deriving DecidableEq, Repr

/-- A synapse row (`Synapse` interface). -/
structure Synapse where
  id : String
  sourceId : String
  targetId : String
  ownerId : String
  weight : ℚ
  formedAt : ℤ
  reinforcedAt : ℤ
deriving DecidableEq, Repr

/-- A chronicle row (`Chronicle` interface).  The source field named
`attribute` is rendered `attr` here (`attribute` is reserved in Lean);
`effectiveUntil = none` models the SQL `NULL` ("still current"). -/
structure Chronicle where
  id : String
  ownerId : String
  entity : String
  attr : String
  value : String
  certainty : ℚ
  effectiveFrom : ℤ
  effectiveUntil : Option ℤ
  recordedAt : ℤ
  metadata : List (String × String)
deriving DecidableEq, Repr

/-- `EngramCreateInput`: optional fields are `Option`, mirroring
`undefined`-able TypeScript fields. -/
structure EngramCreateInput where
  ownerId : String
  content : String
  strand : Option Strand := none
  tags : Option (List String) := none
  metadata : Option (List (String × String)) := none
  signal : Option ℚ := none
  pulseRate : Option ℚ := none
deriving DecidableEq, Repr

/-- `EngramUpdateInput` plus the `contentHash`/`embedding` extras the
service layer passes to the store. -/
structure EngramUpdateInput where
  content : Option String := none
  contentHash : Option String := none
  strand : Option Strand := none
  tags : Option (List String) := none
  metadata : Option (List (String × String)) := none
  embedding : Option (List ℚ) := none
  signal : Option ℚ := none
  pulseRate : Option ℚ := none
deriving DecidableEq, Repr

/-- `SynapseCreateInput`. -/
structure SynapseCreateInput where
  sourceId : String
  targetId : String
  ownerId : String
  weight : Option ℚ := none
deriving DecidableEq, Repr

/-- `ChronicleCreateInput` (source field `attribute` rendered `attr`). -/
structure ChronicleCreateInput where
  ownerId : String
  entity : String
  attr : String
  value : String
  certainty : Option ℚ := none
  effectiveFrom : Option ℤ := none
  effectiveUntil : Option ℤ := none
  metadata : Option (List (String × String)) := none
deriving DecidableEq, Repr

/-- `ChronicleUpdateInput`.  The outer `Option` is "field supplied"
(`!== undefined`); for `effectiveUntil` the inner `Option` is the value
itself, which may be `null`. -/
structure ChronicleUpdateInput where
  certainty : Option ℚ := none
  effectiveUntil : Option (Option ℤ) := none
  metadata : Option (List (String × String)) := none
deriving DecidableEq, Repr

/-! ## Math kernel (`utils/math.ts`) -/

/-- `clamp(value, min, max)`. -/
def clamp (value mn mx : ℚ) : ℚ := min (max value mn) mx

/-- `Math.min(...values)` over a non-empty list (the empty case is never
reached in the source because lengths are checked first). -/
def listMin : List ℚ → ℚ
  | [] => 0
  | x :: xs => xs.foldl min x

/-- `Math.max(...values)` over a non-empty list. -/
def listMax : List ℚ → ℚ
  | [] => 0
  | x :: xs => xs.foldl max x

/-- `minMaxNormalize(values)`: length-0 and length-1 special cases, the
all-equal case mapping to zeros, otherwise `(v - min) / range`. -/
def minMaxNormalize : List ℚ → List ℚ
  | [] => []
  | [v] => [if v > 0 then 1 else 0]
  | values =>
    let mn := listMin values
    let mx := listMax values
    let range := mx - mn
    if range = 0 then values.map (fun _ => 0)
    else values.map (fun v => (v - mn) / range)

/-- Dot product of zipped coordinates, as accumulated by the source loop. -/
def dotProd : List (ℚ × ℚ) → ℚ
  | [] => 0
  | p :: ps => p.1 * p.2 + dotProd ps

/-- `cosineSimilarity(a, b)` with `Math.sqrt` passed as `sq`.  The source
throws on a length mismatch; that exceptional path is modelled as `0`
(no claim exercises it). -/
def cosineSimilarity (sq : ℚ → ℚ) (a b : List ℚ) : ℚ :=
  if a.length = b.length then
    let pairs := a.zip b
    let dp := dotProd pairs
    let normA := dotProd (a.zip a)
    let normB := dotProd (b.zip b)
    let denominator := sq normA * sq normB
    if denominator = 0 then 0 else dp / denominator
  else 0

/-! ## Tokenizer (`utils/text.ts`) -/

/-- The fixed English stopword list. -/
def STOPWORDS : List String :=
  ["a", "an", "the", "is", "are", "was", "were", "be", "been", "being",
   "have", "has", "had", "do", "does", "did", "will", "would", "could",
   "should", "may", "might", "can", "shall", "to", "of", "in", "for",
   "on", "with", "at", "by", "from", "as", "into", "through", "during",
   "before", "after", "above", "below", "between", "out", "off", "over",
   "under", "again", "further", "then", "once", "here", "there", "when",
   "where", "why", "how", "all", "each", "every", "both", "few", "more",
   "most", "other", "some", "such", "no", "nor", "not", "only", "own",
   "same", "so", "than", "too", "very", "just", "because", "but", "and",
   "or", "if", "while", "about", "up", "it", "its", "this", "that",
   "these", "those", "i", "me", "my", "we", "our", "you", "your",
   "he", "him", "his", "she", "her", "they", "them", "their", "what",
   "which", "who", "whom"]

/-- A `\w` character of the source regex (`[A-Za-z0-9_]` over ASCII). -/
def isWordChar (c : Char) : Bool := c.isAlphanum || c = '_'

/-- Split a character list at every separator character, keeping (possibly
empty) fragments — the semantics of splitting a string on single
whitespace characters. -/
def splitChars (p : Char → Bool) : List Char → List (List Char)
  | [] => [[]]
  | c :: cs =>
    let r := splitChars p cs
    if p c then [] :: r
    else (c :: r.headD []) :: r.tail

/-- `tokenize(text)`: lowercase, replace non-word/non-space characters by
spaces, split on whitespace, keep tokens of length > 1 that are not
stopwords.  (Splitting at each whitespace character can yield empty or
single-character fragments — e.g. from `split(/\s+/)`'s empty leading
fragment — and the length filter removes them, exactly as in the
source.) -/
def tokenize (text : String) : List String :=
  let replaced := text.data.map (fun c =>
    let lc := c.toLower
    if isWordChar lc || lc.isWhitespace then lc else ' ')
  ((splitChars (fun c => c.isWhitespace) replaced).map (fun l => l.asString)).filter
    (fun t => t.length > 1 && !(STOPWORDS.contains t))

/-- Association-list model of the JavaScript `Map` used by the text and
BM25 utilities: lookup by key. -/
def mapGetQ (m : List (String × ℚ)) (k : String) : Option ℚ :=
  (m.find? (fun p => p.1 = k)).map (fun p => p.2)

/-- `Map.has`. -/
def mapHasQ (m : List (String × ℚ)) (k : String) : Bool :=
  m.any (fun p => p.1 = k)

/-- `Map.set`: update in place when the key exists, append otherwise. -/
def mapSetQ (m : List (String × ℚ)) (k : String) (v : ℚ) : List (String × ℚ) :=
  if mapHasQ m k then m.map (fun p => if p.1 = k then (k, v) else p)
  else m ++ [(k, v)]

/-- `computeTermFrequencies(tokens)`: fold the token list into a
frequency map. -/
def computeTermFrequencies (tokens : List String) : List (String × ℚ) :=
  tokens.foldl (fun m token => mapSetQ m token ((mapGetQ m token).getD 0 + 1)) []

/-! ## The SQLite store (`sqlite.store.ts`), embedded as pure state passing

Rows live in insertion order; `generateId()` is a counter-based fresh-id
supply; every SQL statement that evaluates `new Date()` receives the
call's timestamp `now : ℤ` explicitly. -/

/-- The four logical tables plus the fresh-id counter. -/
structure StoreState where
  engrams : List Engram
  synapses : List Synapse
  chronicles : List Chronicle
  nextId : ℕ
deriving DecidableEq, Repr

/-- The empty store. -/
def StoreState.empty : StoreState := ⟨[], [], [], 0⟩

namespace SqliteStore

/-- `getEngram(id)`: `SELECT * FROM engrams WHERE id = ?` (primary key). -/
def getEngram (id : String) (s : StoreState) : Option Engram :=
  s.engrams.find? (fun e => e.id = id)

/-- `createEngram(input)`: INSERT with defaults
`signal = input.signal ?? 0.5`, `pulse_rate = input.pulseRate ?? 0.1`,
`access_count = 0`, `version = 1`, all three timestamps `now`. -/
def createEngram (input : EngramCreateInput) (contentHash : String)
    (embedding : List ℚ) (now : ℤ) (s : StoreState) : Engram × StoreState :=
  let e : Engram :=
    { id := "engram-" ++ toString s.nextId
      ownerId := input.ownerId
      content := input.content
      contentHash := contentHash
      strand := input.strand.getD .general
      tags := input.tags.getD []
      metadata := input.metadata.getD []
      embedding := embedding
      signal := input.signal.getD (1/2)
      pulseRate := input.pulseRate.getD (1/10)
      accessCount := 0
      version := 1
      createdAt := now
      updatedAt := now
      lastAccessedAt := now }
  (e, { s with engrams := s.engrams ++ [e], nextId := s.nextId + 1 })

/-- Whether an `updateEngram` input sets no column (`sets.length === 0`). -/
def EngramUpdateInput.isEmpty (i : EngramUpdateInput) : Bool :=
  i.content.isNone && i.contentHash.isNone && i.strand.isNone && i.tags.isNone
    && i.metadata.isNone && i.embedding.isNone && i.signal.isNone && i.pulseRate.isNone

/-- The column assignments of `updateEngram`: each supplied field
overwrites, then `updated_at = now` and `version = version + 1`. -/
def applyEngramUpdate (i : EngramUpdateInput) (now : ℤ) (e : Engram) : Engram :=
  { e with
    content := i.content.getD e.content
    contentHash := i.contentHash.getD e.contentHash
    strand := i.strand.getD e.strand
    tags := i.tags.getD e.tags
    metadata := i.metadata.getD e.metadata
    embedding := i.embedding.getD e.embedding
    signal := i.signal.getD e.signal
    pulseRate := i.pulseRate.getD e.pulseRate
    updatedAt := now
    version := e.version + 1 }

/-- `updateEngram(id, input)`: no-op fetch when nothing is set, otherwise
`UPDATE engrams SET ... WHERE id = ?` followed by a re-fetch. -/
def updateEngram (id : String) (i : EngramUpdateInput) (now : ℤ)
    (s : StoreState) : Option Engram × StoreState :=
  if EngramUpdateInput.isEmpty i then (getEngram id s, s)
  else
    let s' := { s with
      engrams := s.engrams.map (fun e => if e.id = id then applyEngramUpdate i now e else e) }
    (getEngram id s', s')

/-- `deleteEngram(id)` (hard delete; synapse rows cascade on either
endpoint, per the schema's `ON DELETE CASCADE`). -/
def deleteEngram (id : String) (s : StoreState) : Bool × StoreState :=
  let changed := s.engrams.any (fun e => e.id = id)
  (changed,
   { s with
     engrams := s.engrams.filter (fun e => e.id ≠ id)
     synapses := s.synapses.filter (fun sy => sy.sourceId ≠ id ∧ sy.targetId ≠ id) })

/-- `findByContentHash(ownerId, contentHash)` (`LIMIT 1`, insertion
order). -/
def findByContentHash (ownerId contentHash : String) (s : StoreState) : Option Engram :=
  s.engrams.find? (fun e => e.ownerId = ownerId ∧ e.contentHash = contentHash)

/-- `vectorSearch(ownerId, embedding, limit, strand?)`: brute-force cosine
similarity over the owner's engrams, sorted by score descending, first
`limit` kept.  `sq` models `Math.sqrt`. -/
def vectorSearch (sq : ℚ → ℚ) (ownerId : String) (embedding : List ℚ)
    (limit : ℕ) (strand : Option Strand) (s : StoreState) : List (Engram × ℚ) :=
  let rows := s.engrams.filter (fun e =>
    e.ownerId = ownerId ∧ (∀ st ∈ strand, e.strand = st))
  let scored := rows.map (fun e => (e, cosineSimilarity sq embedding e.embedding))
  (scored.mergeSort (fun a b => a.2 ≥ b.2)).take limit

/-- `reinforceEngram(id, boost)`:
`SET signal = MIN(signal + boost, 1.0), updated_at = now`, then re-fetch. -/
def reinforceEngram (id : String) (boost : ℚ) (now : ℤ)
    (s : StoreState) : Option Engram × StoreState :=
  let s' := { s with
    engrams := s.engrams.map (fun e =>
      if e.id = id then { e with signal := min (e.signal + boost) 1, updatedAt := now } else e) }
  (getEngram id s', s')

/-- `decayEngrams(ownerId, decayFactor, minSignal)`:
`SET signal = MAX(signal * factor, minSignal), updated_at = now
 WHERE owner_id = ? AND signal > minSignal`; returns the affected count.
Note: no strand restriction exists in this statement. -/
def decayEngrams (ownerId : String) (decayFactor minSignal : ℚ) (now : ℤ)
    (s : StoreState) : ℕ × StoreState :=
  let hit := fun (e : Engram) => e.ownerId = ownerId ∧ e.signal > minSignal
  let affected := (s.engrams.filter (fun e => hit e)).length
  (affected,
   { s with
     engrams := s.engrams.map (fun e =>
       if hit e then { e with signal := max (e.signal * decayFactor) minSignal, updatedAt := now }
       else e) })

/-- `recordAccess(id)`:
`SET access_count = access_count + 1, last_accessed_at = now`. -/
def recordAccess (id : String) (now : ℤ) (s : StoreState) : StoreState :=
  { s with
    engrams := s.engrams.map (fun e =>
      if e.id = id then { e with accessCount := e.accessCount + 1, lastAccessedAt := now } else e) }

/-- `createSynapse(input)`: INSERT with `weight = input.weight ?? 1.0`,
upserting on `(source_id, target_id)` with
`weight = MIN(weight + input.weight, 1.0)` and `reinforced_at = now`,
then re-fetch of the row for the pair. -/
def createSynapse (input : SynapseCreateInput) (now : ℤ)
    (s : StoreState) : Synapse × StoreState :=
  let w := input.weight.getD 1
  match s.synapses.find? (fun sy => sy.sourceId = input.sourceId ∧ sy.targetId = input.targetId) with
  | some old =>
    let upd := { old with weight := min (old.weight + w) 1, reinforcedAt := now }
    (upd,
     { s with
       synapses := s.synapses.map (fun sy =>
         if sy.sourceId = input.sourceId ∧ sy.targetId = input.targetId then
           { sy with weight := min (sy.weight + w) 1, reinforcedAt := now }
         else sy) })
  | none =>
    let sy : Synapse :=
      { id := "synapse-" ++ toString s.nextId
        sourceId := input.sourceId
        targetId := input.targetId
        ownerId := input.ownerId
        weight := w
        formedAt := now
        reinforcedAt := now }
    (sy, { s with synapses := s.synapses ++ [sy], nextId := s.nextId + 1 })

/-- `getSynapsesBetween(sourceId, targetId)`. -/
def getSynapsesBetween (sourceId targetId : String) (s : StoreState) : Option Synapse :=
  s.synapses.find? (fun sy => sy.sourceId = sourceId ∧ sy.targetId = targetId)

/-- `getSynapsesFrom(engramId)`. -/
def getSynapsesFrom (engramId : String) (s : StoreState) : List Synapse :=
  s.synapses.filter (fun sy => sy.sourceId = engramId)

/-- `reinforceSynapse(id, boost)`:
`SET weight = MIN(weight + boost, 1.0), reinforced_at = now`. -/
def reinforceSynapse (id : String) (boost : ℚ) (now : ℤ)
    (s : StoreState) : Option Synapse × StoreState :=
  let s' := { s with
    synapses := s.synapses.map (fun sy =>
      if sy.id = id then { sy with weight := min (sy.weight + boost) 1, reinforcedAt := now } else sy) }
  (s'.synapses.find? (fun sy => sy.id = id), s')

/-- `createChronicle(input)`: INSERT with `certainty ?? 1.0`,
`effective_from = input.effectiveFrom ?? now`,
`effective_until = input.effectiveUntil ?? null`, `recorded_at = now`. -/
def createChronicle (input : ChronicleCreateInput) (now : ℤ)
    (s : StoreState) : Chronicle × StoreState :=
  let c : Chronicle :=
    { id := "chronicle-" ++ toString s.nextId
      ownerId := input.ownerId
      entity := input.entity
      attr := input.attr
      value := input.value
      certainty := input.certainty.getD 1
      effectiveFrom := input.effectiveFrom.getD now
      effectiveUntil := input.effectiveUntil
      recordedAt := now
      metadata := input.metadata.getD [] }
  (c, { s with chronicles := s.chronicles ++ [c], nextId := s.nextId + 1 })

/-- `getChronicle(id)`. -/
def getChronicle (id : String) (s : StoreState) : Option Chronicle :=
  s.chronicles.find? (fun c => c.id = id)

/-- Whether an `updateChronicle` input sets no column. -/
def ChronicleUpdateInput.isEmpty (i : ChronicleUpdateInput) : Bool :=
  i.certainty.isNone && i.effectiveUntil.isNone && i.metadata.isNone

/-- `updateChronicle(id, input)`: supplied fields overwrite
(`effectiveUntil` may be set to `null`), then re-fetch. -/
def updateChronicle (id : String) (i : ChronicleUpdateInput) (s : StoreState) :
    Option Chronicle × StoreState :=
  if ChronicleUpdateInput.isEmpty i then (getChronicle id s, s)
  else
    let s' := { s with
      chronicles := s.chronicles.map (fun c =>
        if c.id = id then
          { c with
            certainty := i.certainty.getD c.certainty
            effectiveUntil := i.effectiveUntil.getD c.effectiveUntil
            metadata := i.metadata.getD c.metadata }
        else c) }
    (getChronicle id s', s')

/-- `deleteChronicle(id)` (soft delete):
`SET effective_until = now WHERE id = ? AND effective_until IS NULL`. -/
def deleteChronicle (id : String) (now : ℤ) (s : StoreState) : Bool × StoreState :=
  let hit := fun (c : Chronicle) => c.id = id ∧ c.effectiveUntil = none
  (s.chronicles.any (fun c => hit c),
   { s with
     chronicles := s.chronicles.map (fun c =>
       if hit c then { c with effectiveUntil := some now } else c) })

/-- The SQL currency predicate:
`effective_from <= now AND (effective_until IS NULL OR effective_until > now)`. -/
def chronicleCurrentAt (now : ℤ) (c : Chronicle) : Bool :=
  decide (c.effectiveFrom ≤ now) &&
    (match c.effectiveUntil with
     | none => true
     | some u => decide (u > now))

/-- `getCurrentFact(ownerId, entity, attribute)`: current chronicles of
the tuple, `ORDER BY effective_from DESC LIMIT 1`. -/
def getCurrentFact (ownerId entity attr : String) (now : ℤ)
    (s : StoreState) : Option Chronicle :=
  let rows := s.chronicles.filter (fun c =>
    c.ownerId = ownerId ∧ c.entity = entity ∧ c.attr = attr ∧ chronicleCurrentAt now c)
  (rows.mergeSort (fun a b => a.effectiveFrom ≥ b.effectiveFrom)).head?

/-- `getCurrentChronicles(ownerId)`: all current chronicles of the owner,
`ORDER BY effective_from DESC`. -/
def getCurrentChronicles (ownerId : String) (now : ℤ) (s : StoreState) : List Chronicle :=
  (s.chronicles.filter (fun c => c.ownerId = ownerId ∧ chronicleCurrentAt now c)).mergeSort
    (fun a b => a.effectiveFrom ≥ b.effectiveFrom)

/-- `getTimeline(ownerId, entity)`: `ORDER BY effective_from ASC`. -/
def getTimeline (ownerId entity : String) (s : StoreState) : List Chronicle :=
  (s.chronicles.filter (fun c => c.ownerId = ownerId ∧ c.entity = entity)).mergeSort
    (fun a b => a.effectiveFrom ≤ b.effectiveFrom)

end SqliteStore

/-! ## Signal dynamics (`decay.service.ts`) -/

/-- The default per-strand decay rates (`DEFAULT_DECAY_OPTIONS.strandRates`). -/
def strandRate : Strand → ℚ
  | .factual => 95/100
  | .experiential => 90/100
  | .procedural => 97/100
  | .preferential => 93/100
  | .relational => 92/100
  | .general => 88/100

/-- `DEFAULT_DECAY_OPTIONS.minSignal`. -/
def decayMinSignal : ℚ := 1/100

namespace DecayService

/-- `DecayService.runDecay(ownerId)`: for each strand in `STRANDS`, call
`store.decayEngrams(ownerId, strandRates[strand], minSignal)` and sum
the affected counts.  (The store call carries no strand restriction.) -/
def runDecay (ownerId : String) (now : ℤ) (s : StoreState) : ℕ × StoreState :=
  STRANDS.foldl
    (fun acc strand =>
      let r := SqliteStore.decayEngrams ownerId (strandRate strand) decayMinSignal now acc.2
      (acc.1 + r.1, r.2))
    (0, s)

/-- `DecayService.reinforceAccess(engramId, boost = 0.1)`:
`reinforceEngram` then `recordAccess`. -/
def reinforceAccess (engramId : String) (boost : ℚ) (now : ℤ) (s : StoreState) : StoreState :=
  SqliteStore.recordAccess engramId now (SqliteStore.reinforceEngram engramId boost now s).2

end DecayService

/-! ## Temporal service (`temporal.service.ts`) -/

namespace TemporalService

/-- `TemporalService.recordFact(input)`: look up the current chronicle of
`(ownerId, entity, attribute)`; if one exists and `input.effectiveFrom`
is not supplied, set its `effectiveUntil` to now; then create the new
chronicle from the input. -/
def recordFact (input : ChronicleCreateInput) (now : ℤ) (s : StoreState) :
    Chronicle × StoreState :=
  let existing := SqliteStore.getCurrentFact input.ownerId input.entity input.attr now s
  let s1 :=
    match existing with
    | some ex =>
      if input.effectiveFrom.isNone then
        (SqliteStore.updateChronicle ex.id { effectiveUntil := some (some now) } s).2
      else s
    | none => s
  SqliteStore.createChronicle input now s1

end TemporalService

/-! ## Deduplication (`deduplication.service.ts`)

`sha256` is modelled as an abstract `hash : String → String` parameter
(the services only compare digests for equality). -/

namespace DeduplicationService

/-- The near-duplicate cosine threshold (constructor default `0.92`). -/
def threshold : ℚ := 92/100

/-- `checkDuplicate(ownerId, content, embedding)`: exact content-hash
match first, then cosine similarity against the top-5 vector neighbors,
first match at least `0.92` winning.  Returns the existing engram when a
duplicate is found. -/
def checkDuplicate (sq : ℚ → ℚ) (hash : String → String)
    (ownerId content : String) (embedding : List ℚ) (s : StoreState) : Option Engram :=
  match SqliteStore.findByContentHash ownerId (hash content) s with
  | some e => some e
  | none =>
    let candidates := SqliteStore.vectorSearch sq ownerId embedding 5 none s
    (candidates.find? (fun c =>
      cosineSimilarity sq embedding c.1.embedding ≥ threshold)).map (fun c => c.1)

end DeduplicationService

/-! ## Fact extraction (`fact-extraction.service.ts`)

The completion provider's structured JSON reply is modelled loosely
enough to express the runtime checks the extractor performs:
`Except Unit _` for `completeJson` raising; `Option` on `facts` /
`temporalFacts` for the `Array.isArray` checks; `Option` on elements for
the per-element `typeof` checks. -/

/-- A well-typed `(entity, attribute, value)` triple (source field
`attribute` rendered `attr`). -/
structure TemporalFact where
  entity : String
  attr : String
  value : String
deriving DecidableEq, Repr

/-- The provider reply as the extractor inspects it: `facts` is `none`
when not an array, an element is `none` when not a string;
`temporalFacts` likewise, an element being `none` when it fails the
`typeof` field checks. -/
structure RawExtraction where
  facts : Option (List (Option String))
  strand : String
  temporalFacts : Option (List (Option TemporalFact))
deriving DecidableEq, Repr

/-- The extractor's result. -/
structure ExtractionResult where
  facts : List String
  strand : Strand
  temporalFacts : List TemporalFact
deriving DecidableEq, Repr

namespace FactExtractionService

/-- `FactExtractionService.extract(content)`: on a provider exception the
raw content becomes the single fact with strand `general` and no
temporal facts; otherwise the strand falls back to `general` when
unknown, non-string/empty facts are dropped (the raw content standing in
when none survive or `facts` is not an array), and ill-typed temporal
facts are dropped. -/
def extract (outcome : Except Unit RawExtraction) (content : String) : ExtractionResult :=
  match outcome with
  | .error _ => { facts := [content], strand := .general, temporalFacts := [] }
  | .ok result =>
    let strand := (strandOfString result.strand).getD .general
    let facts0 :=
      match result.facts with
      | some l => (l.filterMap id).filter (fun f => f.length > 0)
      | none => [content]
    let facts := if facts0.length = 0 then facts0 ++ [content] else facts0
    let temporalFacts :=
      match result.temporalFacts with
      | some l => l.filterMap id
      | none => []
    { facts := facts, strand := strand, temporalFacts := temporalFacts }

end FactExtractionService

/-! ## Ingestion orchestrator (`memory.service.ts`) -/

/-- Ordered pairs `(i, j)` with `i < j`, as produced by the nested
synapse-formation loops of `addMemory`. -/
def allPairs : List α → List (α × α)
  | [] => []
  | x :: xs => xs.map (fun y => (x, y)) ++ allPairs xs

namespace MemoryService

/-- `MemoryService.addMemory(input)`.  Parameters: `extract` is the
(deterministic) composition of the completion provider and
`FactExtractionService.extract` on a given text; `embed` the embedder;
`hash` the `sha256` digest; `sq` models `Math.sqrt` inside cosine
similarity.  Returns the stored-or-reinforced engrams and the new
store state. -/
def addMemory (extract : String → ExtractionResult) (embed : String → List ℚ)
    (hash : String → String) (sq : ℚ → ℚ)
    (input : EngramCreateInput) (now : ℤ) (s : StoreState) :
    List Engram × StoreState :=
  let ext := extract input.content
  let effectiveStrand := input.strand.getD ext.strand
  if ext.facts.length = 0 ∧ ext.temporalFacts.length = 0 then ([], s)
  else
    let step := fun (acc : List Engram × StoreState) (fact : String) =>
      let embedding := embed fact
      match DeduplicationService.checkDuplicate sq hash input.ownerId fact embedding acc.2 with
      | some existing =>
        (acc.1 ++ [existing], DecayService.reinforceAccess existing.id (1/10) now acc.2)
      | none =>
        let r := SqliteStore.createEngram
          { ownerId := input.ownerId, content := fact, strand := some effectiveStrand,
            tags := input.tags, metadata := input.metadata, signal := input.signal,
            pulseRate := input.pulseRate } (hash fact) embedding now acc.2
        (acc.1 ++ [r.1], r.2)
    let stored := ext.facts.foldl step ([], s)
    let s2 :=
      if stored.1.length > 1 then
        (allPairs stored.1).foldl
          (fun st p =>
            (SqliteStore.createSynapse
              { sourceId := p.1.id, targetId := p.2.id, ownerId := input.ownerId,
                weight := some (1/2) } now st).2)
          stored.2
      else stored.2
    let s3 :=
      ext.temporalFacts.foldl
        (fun st tf =>
          (TemporalService.recordFact
            { ownerId := input.ownerId, entity := tf.entity, attr := tf.attr,
              value := tf.value } now st).2)
        s2
    (stored.1, s3)

/-- `MemoryService.getEngram(id)`: fetch, and on success record the
access (the snapshot fetched before the stamp is returned). -/
def getEngram (id : String) (now : ℤ) (s : StoreState) : Option Engram × StoreState :=
  match SqliteStore.getEngram id s with
  | some e => (some e, SqliteStore.recordAccess id now s)
  | none => (none, s)

end MemoryService

/-! ## BM25 scorer (`retrieval/bm25.ts`)

`Math.log` is the abstract parameter `lg`. -/

/-- A document handed to the scorer. -/
structure BM25Document where
  id : String
  content : String
deriving DecidableEq, Repr

/-- A scored document. -/
structure BM25Result where
  id : String
  score : ℚ
deriving DecidableEq, Repr

namespace BM25Scorer

/-- The document-frequency map built by the scorer: for each query token
not already present, count the candidate documents containing it. -/
def dfMap (queryTokens : List String) (docTokens : List (List String)) :
    List (String × ℚ) :=
  queryTokens.foldl
    (fun m token =>
      if mapHasQ m token then m
      else
        mapSetQ m token
          (docTokens.foldl (fun count tokens => if tokens.contains token then count + 1 else count) 0))
    []

/-- `BM25Scorer.score(query, documents)` with parameters `k1`, `b`
(constructor defaults 1.5, 0.75).  The source hoists per-document
tokenization into indexed arrays (`docTokens`, `docLengths`); this
embedding recomputes `tokenize doc.content` at the point of use, a pure
memoization difference. -/
def score (lg : ℚ → ℚ) (k1 b : ℚ) (query : String) (documents : List BM25Document) :
    List BM25Result :=
  if documents.length = 0 then []
  else
    let queryTokens := tokenize query
    if queryTokens.length = 0 then documents.map (fun d => ⟨d.id, 0⟩)
    else
      let docTokens := documents.map (fun d => tokenize d.content)
      let avgDocLength := ((docTokens.map (fun t => (t.length : ℚ))).sum) / (documents.length : ℚ)
      let df := dfMap queryTokens docTokens
      let nn : ℚ := documents.length
      documents.map (fun doc =>
        let dTokens := tokenize doc.content
        let tf := computeTermFrequencies dTokens
        let score := queryTokens.foldl
          (fun sc term =>
            let termFreq := (mapGetQ tf term).getD 0
            let docFreq := (mapGetQ df term).getD 0
            if termFreq = 0 ∨ docFreq = 0 then sc
            else
              let idf := lg ((nn - docFreq + 1/2) / (docFreq + 1/2) + 1)
              let tfNorm := (termFreq * (k1 + 1)) /
                (termFreq + k1 * (1 - b + b * (((dTokens.length : ℚ)) / avgDocLength)))
              sc + idf * tfNorm)
          0
        ⟨doc.id, score⟩)

end BM25Scorer

/-- The Okapi BM25 score of one document against a query, written from
the spec's words: document frequency across the candidate set only,
`IDF = log((N − df + 0.5)/(df + 0.5) + 1)`, length normalization by the
mean document length of the candidate set, parameters `k1`, `b`.  Used
to state that `BM25Scorer.score` implements this formula. -/
def okapiBm25 (lg : ℚ → ℚ) (k1 b : ℚ) (query : String)
    (documents : List BM25Document) (doc : BM25Document) : ℚ :=
  let queryTokens := tokenize query
  let allTokens := documents.map (fun d => tokenize d.content)
  let nn : ℚ := documents.length
  let avg := ((allTokens.map (fun t => (t.length : ℚ))).sum) / nn
  let dTokens := tokenize doc.content
  (queryTokens.map (fun term =>
    let tf : ℚ := dTokens.count term
    let df : ℚ := (allTokens.filter (fun ts => ts.contains term)).length
    if tf = 0 ∨ df = 0 then 0
    else
      lg ((nn - df + 1/2) / (df + 1/2) + 1) *
        ((tf * (k1 + 1)) / (tf + k1 * (1 - b + b * (((dTokens.length : ℚ)) / avg)))))).sum

/-! ## Retrieval pipeline (`retrieval/pipeline.ts`)

The pipeline's effectful inputs — the embedded query's vector-search
result, the owner's engram listing for the fallback, and the synapse
adjacency used by the BFS expansion — are passed as parameters; `ex` and
`lg` model `Math.exp` and `Math.log`. -/

/-- The fusion and expansion constants (`PipelineConfig`). -/
structure PipelineConfig where
  vectorWeight : ℚ
  keywordWeight : ℚ
  recencyWeight : ℚ
  signalWeight : ℚ
  synapseWeight : ℚ
  recencyHalfLifeDays : ℚ
  recencyMaxDays : ℚ
  synapseDepth : ℕ
  synapseDecay : ℚ
deriving DecidableEq, Repr

/-- `DEFAULT_CONFIG`. -/
def DEFAULT_CONFIG : PipelineConfig :=
  { vectorWeight := 30/100
    keywordWeight := 30/100
    recencyWeight := 10/100
    signalWeight := 15/100
    synapseWeight := 15/100
    recencyHalfLifeDays := 7
    recencyMaxDays := 90
    synapseDepth := 2
    synapseDecay := 8/10 }

/-- `SearchQuery` options. -/
structure SearchQuery where
  ownerId : String
  query : String
  limit : Option ℕ := none
  strand : Option Strand := none
  minScore : Option ℚ := none
  minFinalScore : Option ℚ := none
  expandSynapses : Option Bool := none
deriving DecidableEq, Repr

/-- A per-hit `RetrievalTrace`. -/
structure RetrievalTrace where
  vectorScore : ℚ
  keywordScore : ℚ
  recencyBoost : ℚ
  signalBoost : ℚ
  synapseBoost : ℚ
  finalScore : ℚ
deriving DecidableEq, Repr

/-- A search hit.  (The source strips the engram to a public subset of
fields; the trace, which the claims are about, is carried verbatim.) -/
structure SearchHit where
  engram : Engram
  trace : RetrievalTrace
deriving DecidableEq, Repr

/-- A node of a synapse-expansion result (`SynapseExpansion`; the `path`
field is dropped — nothing reads it). -/
structure SynapseExpansion where
  engramId : String
  boost : ℚ
  depth : ℕ
deriving DecidableEq, Repr

namespace RetrievalPipeline

/-- One generation of the BFS loop of `expandSynapses`: process each
frontier node in order, skipping nodes at `maxDepth`, visiting unvisited
targets of outgoing synapses with
`boost = parentBoost × weight × decayFactor`.
Accumulator: `(expansions so far, visited set, next frontier)`. -/
def bfsGeneration (getFrom : String → List Synapse) (decayFactor : ℚ) (maxDepth : ℕ)
    (frontier : List SynapseExpansion) (visited : List String) :
    List SynapseExpansion × List String × List SynapseExpansion :=
  frontier.foldl
    (fun acc node =>
      if node.depth ≥ maxDepth then acc
      else
        (getFrom node.engramId).foldl
          (fun acc2 syn =>
            if acc2.2.1.contains syn.targetId then acc2
            else
              let e : SynapseExpansion :=
                { engramId := syn.targetId
                  boost := node.boost * syn.weight * decayFactor
                  depth := node.depth + 1 }
              (acc2.1 ++ [e], acc2.2.1 ++ [syn.targetId], acc2.2.2 ++ [e]))
          acc)
    ([], visited, [])

/-- The `while (frontier.length > 0)` loop, driven by a fuel that bounds
the number of generations.  In the source the loop ends by itself: all
nodes of generation `k` have depth `k`, and nodes at `maxDepth` produce
no children, so `maxDepth + 1` generations always suffice. -/
def bfsLoop (getFrom : String → List Synapse) (decayFactor : ℚ) (maxDepth : ℕ) :
    ℕ → List SynapseExpansion → List String → List SynapseExpansion
  | 0, _, _ => []
  | fuel + 1, frontier, visited =>
    if frontier.length = 0 then []
    else
      let g := bfsGeneration getFrom decayFactor maxDepth frontier visited
      g.1 ++ bfsLoop getFrom decayFactor maxDepth fuel g.2.2 g.2.1

/-- `expandSynapses(seedIds)`: seeds enter visited immediately and are
not emitted; BFS along outgoing synapses. -/
def expandSynapses (getFrom : String → List Synapse) (cfg : PipelineConfig)
    (seedIds : List String) : List SynapseExpansion :=
  bfsLoop getFrom cfg.synapseDecay cfg.synapseDepth (cfg.synapseDepth + 1)
    (seedIds.map (fun id => { engramId := id, boost := 1, depth := 0 })) seedIds

/-- `(Date.now() - engram.lastAccessedAt.getTime()) / (1000*60*60*24)`. -/
def daysSinceAccess (now : ℤ) (e : Engram) : ℚ :=
  ((now : ℚ) - (e.lastAccessedAt : ℚ)) / 86400000

/-- The recency boost:
`recencyWeight × exp(−d / halfLife) × clamp(1 − d / maxDays, 0, 1)`. -/
def recencyBoostOf (cfg : PipelineConfig) (ex : ℚ → ℚ) (d : ℚ) : ℚ :=
  cfg.recencyWeight * ex (-(d / cfg.recencyHalfLifeDays)) *
    clamp (1 - d / cfg.recencyMaxDays) 0 1

/-- A fallback default for the source's non-null assertion
`engramMap.get(kh.id)!` (the id always resolves; see
`bm25_ids_from_docs`). -/
def defaultEngram : Engram :=
  { id := "", ownerId := "", content := "", contentHash := "", strand := .general,
    tags := [], metadata := [], embedding := [], signal := 0, pulseRate := 0,
    accessCount := 0, version := 0, createdAt := 0, updatedAt := 0, lastAccessedAt := 0 }

/-- The hit built on the fallback path for one keyword match (the body of
the source's `.map(kh => ...)`). -/
def fallbackHit (cfg : PipelineConfig) (ex : ℚ → ℚ) (allEngrams : List Engram)
    (now : ℤ) (maxBm25 : ℚ) (kh : BM25Result) : SearchHit :=
  let engram := (allEngrams.find? (fun e => e.id = kh.id)).getD defaultEngram
  let d := daysSinceAccess now engram
  let normalizedKw := if maxBm25 > 0 then kh.score / maxBm25 else 0
  let recencyBoost := recencyBoostOf cfg ex d
  let signalBoost := cfg.signalWeight * engram.signal
  let keywordComponent := cfg.keywordWeight * normalizedKw
  { engram := engram
    trace :=
      { vectorScore := 0, keywordScore := normalizedKw,
        recencyBoost := recencyBoost, signalBoost := signalBoost,
        synapseBoost := 0,
        finalScore := keywordComponent + recencyBoost + signalBoost } }

/-- The hit built on the hybrid path for one indexed candidate (the body
of the source's `filtered.map((vr, idx) => ...)`). -/
def hybridHit (cfg : PipelineConfig) (ex : ℚ → ℚ)
    (normalizedVector normalizedKeyword : List ℚ)
    (synapseBoosts : List (String × ℚ)) (now : ℤ)
    (p : ℕ × (Engram × ℚ)) : SearchHit :=
  let idx := p.1
  let vr := p.2
  let d := daysSinceAccess now vr.1
  let vectorComponent := cfg.vectorWeight * (normalizedVector.getD idx 0)
  let keywordComponent := cfg.keywordWeight * (normalizedKeyword.getD idx 0)
  let recencyBoost := recencyBoostOf cfg ex d
  let signalBoost := cfg.signalWeight * vr.1.signal
  let synapseBoost := cfg.synapseWeight * ((mapGetQ synapseBoosts vr.1.id).getD 0)
  SearchHit.mk vr.1
    { vectorScore := normalizedVector.getD idx 0
      keywordScore := normalizedKeyword.getD idx 0
      recencyBoost := recencyBoost
      signalBoost := signalBoost
      synapseBoost := synapseBoost
      finalScore := vectorComponent + keywordComponent + recencyBoost +
        signalBoost + synapseBoost }

/-- The hit list of `RetrievalPipeline.search(query)` (steps 2–9 of the
source; the parallel chronicle match and the fire-and-forget access
reinforcement do not touch the hits).  `vectorResults` is what
`store.vectorSearch` returned, `allEngrams` what `store.listEngrams`
returned for the fallback, `getFrom` the synapse adjacency. -/
def searchHits (cfg : PipelineConfig) (ex lg : ℚ → ℚ) (q : SearchQuery)
    (vectorResults : List (Engram × ℚ)) (allEngrams : List Engram)
    (getFrom : String → List Synapse) (now : ℤ) : List SearchHit :=
  let limit := q.limit.getD 10
  let minScore := q.minScore.getD 0
  let filtered :=
    if minScore > 0 then vectorResults.filter (fun vr => vr.2 ≥ minScore)
    else vectorResults
  if filtered.length = 0 then
    -- keyword-only fallback
    let fallbackDocs := allEngrams.map (fun e => BM25Document.mk e.id e.content)
    let fallbackBm25 := BM25Scorer.score lg (3/2) (3/4) q.query fallbackDocs
    let keywordHits := fallbackBm25.filter (fun r => r.score > 0)
    if keywordHits.length = 0 then []
    else
      let maxBm25 := listMax (keywordHits.map (fun h => h.score))
      ((keywordHits.mergeSort (fun a b => a.score ≥ b.score)).take limit).map
        (fallbackHit cfg ex allEngrams now maxBm25)
  else
    let bm25Docs := filtered.map (fun vr => BM25Document.mk vr.1.id vr.1.content)
    let bm25Results := BM25Scorer.score lg (3/2) (3/4) q.query bm25Docs
    let bm25Of := fun (id : String) =>
      ((bm25Results.find? (fun r => r.id = id)).map (fun r => r.score)).getD 0
    let normalizedVector := minMaxNormalize (filtered.map (fun vr => vr.2))
    let normalizedKeyword := minMaxNormalize (filtered.map (fun vr => bm25Of vr.1.id))
    let synapseBoosts :=
      if q.expandSynapses ≠ some false then
        let topSeeds := filtered.take (min 5 filtered.length)
        let expansions := expandSynapses getFrom cfg (topSeeds.map (fun s => s.1.id))
        expansions.foldl
          (fun m e => mapSetQ m e.engramId (max ((mapGetQ m e.engramId).getD 0) e.boost))
          []
      else []
    let scored := filtered.enum.map
      (hybridHit cfg ex normalizedVector normalizedKeyword synapseBoosts now)
    let sorted := scored.mergeSort (fun a b => a.trace.finalScore ≥ b.trace.finalScore)
    let minFinalScore := q.minFinalScore.getD (35/100)
    let byFinal :=
      if minFinalScore > 0 then sorted.filter (fun h => h.trace.finalScore ≥ minFinalScore)
      else sorted
    byFinal.take limit

/-- Step 3 of `search` in isolation: the candidate filter that consumes
the store's vector-search scores (`minScore` defaults to 0 = disabled). -/
def filteredCandidates (q : SearchQuery) (vectorResults : List (Engram × ℚ)) :
    List (Engram × ℚ) :=
  let minScore := q.minScore.getD 0
  if minScore > 0 then vectorResults.filter (fun vr => vr.2 ≥ minScore)
  else vectorResults

/-- The chronicle matcher (`searchChronicles`): tokenize the query, score
each current chronicle by the fraction of query tokens appearing among
the tokens of `"{entity} {attribute} {value}"`, keep relevance > 0,
top 5 by relevance. -/
def searchChronicles (q : String) (chronicles : List Chronicle) :
    List (Chronicle × ℚ) :=
  if chronicles.length = 0 then []
  else
    let queryTokens := tokenize q
    if queryTokens.length = 0 then []
    else
      let scored := chronicles.foldl
        (fun acc c =>
          let fieldTokens := tokenize (c.entity ++ " " ++ c.attr ++ " " ++ c.value)
          let matchCount := (queryTokens.filter (fun qt => fieldTokens.any (fun ft => ft = qt))).length
          if matchCount > 0 then acc ++ [(c, (matchCount : ℚ) / (queryTokens.length : ℚ))]
          else acc)
        []
      (scored.mergeSort (fun a b => a.2 ≥ b.2)).take 5

end RetrievalPipeline

/-! ## Shared helper lemmas -/

/-- `find?` commutes with a `map` whose function preserves the predicate. -/
theorem find?_map_pred (g : α → α) (p : α → Bool) (hp : ∀ x, p (g x) = p x)
    (l : List α) : (l.map g).find? p = (l.find? p).map g := by
  induction l with
  | nil => rfl
  | cons x xs ih =>
    simp only [List.map_cons, List.find?_cons, hp x]
    cases h : p x <;> simp [ih]

/-- A list of length at most one containing an element is that singleton. -/
theorem eq_singleton_of_length_le_one {l : List α} {a : α}
    (hlen : l.length ≤ 1) (ha : a ∈ l) : l = [a] := by
  cases l with
  | nil => cases ha
  | cons x t =>
    cases t with
    | nil => rcases List.mem_singleton.mp ha with rfl; rfl
    | cons y u => simp at hlen

/-! ## C1 — the decay cycle and per-strand rates -/

/-- An experiential engram with signal 0.1 for owner `"u"` (the spec's
decay scenario; the experiential strand rate is 0.90). -/
def c1Engram : Engram :=
  { id := "engram-0", ownerId := "u", content := "memory", contentHash := "h0",
    strand := .experiential, tags := [], metadata := [], embedding := [1],
    signal := 1/10, pulseRate := 1/10, accessCount := 0, version := 1,
    createdAt := 0, updatedAt := 0, lastAccessedAt := 0 }

/-- The store holding only `c1Engram`. -/
def c1State : StoreState := { engrams := [c1Engram], synapses := [], chronicles := [], nextId := 1 }

/-- **C1.** Contrary to the claim that one decay cycle sets an engram's
signal to `max(signal × rate[strand], minSignal)` using the rate of the
engram's own strand (0.90 for an experiential engram with signal 0.1,
expecting 0.09), `DecayService.runDecay` iterates the six strands but
`SqliteStore.decayEngrams` carries no strand restriction, so every rate
is applied in turn to every engram of the owner: the signal ends at
0.1 × 0.95 × 0.90 × 0.97 × 0.93 × 0.92 × 0.88 ≈ 0.0624, not 0.09. -/
theorem c1_decay_cycle_applies_every_strand_rate :
    ((SqliteStore.getEngram "engram-0" (DecayService.runDecay "u" 5 c1State).2).map
        (fun e => e.signal)) =
      some ((1/10) * (95/100) * (90/100) * (97/100) * (93/100) * (92/100) * (88/100))
    ∧ ((1:ℚ)/10) * (95/100) * (90/100) * (97/100) * (93/100) * (92/100) * (88/100)
        ≠ (1/10) * (90/100) := by
  constructor
  · norm_num [DecayService.runDecay, STRANDS, SqliteStore.decayEngrams, strandRate,
      decayMinSignal, SqliteStore.getEngram, c1State, c1Engram, List.find?,
      List.foldl, List.filter, List.map]
  · norm_num

/-! ## C4 — signal range across engram writes -/

/-- An engram write operation of the store interface. -/
inductive EngramOp where
  | create (input : EngramCreateInput) (contentHash : String) (embedding : List ℚ) (now : ℤ)
  | update (id : String) (input : EngramUpdateInput) (now : ℤ)
  | reinforce (id : String) (boost : ℚ) (now : ℤ)
  | decay (ownerId : String) (factor minSignal : ℚ) (now : ℤ)
  | access (id : String) (now : ℤ)
  | delete (id : String)

/-- Apply one engram write to the store. -/
def EngramOp.apply : EngramOp → StoreState → StoreState
  | .create input contentHash embedding now, s =>
    (SqliteStore.createEngram input contentHash embedding now s).2
  | .update id input now, s => (SqliteStore.updateEngram id input now s).2
  | .reinforce id boost now, s => (SqliteStore.reinforceEngram id boost now s).2
  | .decay ownerId factor minSignal now, s =>
    (SqliteStore.decayEngrams ownerId factor minSignal now s).2
  | .access id now, s => SqliteStore.recordAccess id now s
  | .delete id, s => (SqliteStore.deleteEngram id s).2

/-- The numeric preconditions under which signals stay in range: any
caller-supplied signal lies in [0, 1], reinforcement boosts are
non-negative, decay factors and floors lie in [0, 1]. -/
def EngramOp.wellBounded : EngramOp → Prop
  | .create input _ _ _ => ∀ x ∈ input.signal, 0 ≤ x ∧ x ≤ 1
  | .update _ input _ => ∀ x ∈ input.signal, 0 ≤ x ∧ x ≤ 1
  | .reinforce _ boost _ => 0 ≤ boost
  | .decay _ factor minSignal _ => 0 ≤ factor ∧ factor ≤ 1 ∧ 0 ≤ minSignal ∧ minSignal ≤ 1
  | .access _ _ => True
  | .delete _ => True

/-- Every stored engram's signal lies in [0, 1]. -/
def signalsInRange (s : StoreState) : Prop :=
  ∀ e ∈ s.engrams, 0 ≤ e.signal ∧ e.signal ≤ 1

/-- Apply a sequence of engram writes. -/
def applyOps (ops : List EngramOp) (s : StoreState) : StoreState :=
  ops.foldl (fun s op => op.apply s) s

/-- One well-bounded write preserves the signal range. -/
theorem EngramOp.apply_signalsInRange (op : EngramOp) (s : StoreState)
    (hop : op.wellBounded) (h : signalsInRange s) : signalsInRange (op.apply s) := by
  cases op with
  | create input contentHash embedding now =>
    intro e he
    rcases List.mem_append.mp he with he' | he'
    · exact h e he'
    · rcases List.mem_singleton.mp he' with rfl
      simp only [SqliteStore.createEngram]
      cases hx : input.signal with
      | none => norm_num
      | some x => simpa [hx] using hop x (by simp [hx])
  | update id input now =>
    intro e he
    simp only [EngramOp.apply, SqliteStore.updateEngram] at he
    split at he
    · exact h e he
    · rcases List.mem_map.mp he with ⟨e0, he0, rfl⟩
      by_cases hid : e0.id = id
      · simp only [hid, if_true, SqliteStore.applyEngramUpdate]
        cases hx : input.signal with
        | none => simpa [hx] using h e0 he0
        | some x => simpa [hx] using hop x (by simp [hx])
      · simpa [hid] using h e0 he0
  | reinforce id boost now =>
    have hb : 0 ≤ boost := hop
    intro e he
    rcases List.mem_map.mp he with ⟨e0, he0, rfl⟩
    have h0 := h e0 he0
    by_cases hid : e0.id = id
    · simp only [hid, if_true]
      exact ⟨le_min_iff.mpr ⟨by linarith [h0.1], by norm_num⟩, min_le_right _ _⟩
    · simpa [hid] using h0
  | decay ownerId factor minSignal now =>
    have hd : 0 ≤ factor ∧ factor ≤ 1 ∧ 0 ≤ minSignal ∧ minSignal ≤ 1 := hop
    intro e he
    rcases List.mem_map.mp he with ⟨e0, he0, rfl⟩
    have h0 := h e0 he0
    by_cases hhit : e0.ownerId = ownerId ∧ e0.signal > minSignal
    · simp only [hhit, and_self, if_true]
      refine ⟨le_max_iff.mpr (Or.inr hd.2.2.1), max_le ?_ hd.2.2.2⟩
      nlinarith [h0.1, h0.2, hd.1, hd.2.1]
    · simpa [hhit] using h0
  | access id now =>
    intro e he
    rcases List.mem_map.mp he with ⟨e0, he0, rfl⟩
    by_cases hid : e0.id = id
    · simpa [hid] using h e0 he0
    · simpa [hid] using h e0 he0
  | delete id =>
    intro e he
    exact h e (List.mem_of_mem_filter he)

/-- A signal of 0.5 for a fresh engram, to seed counterexample states. -/
def c4Engram : Engram :=
  { id := "engram-0", ownerId := "u", content := "memory", contentHash := "h0",
    strand := .general, tags := [], metadata := [], embedding := [1],
    signal := 1/2, pulseRate := 1/10, accessCount := 0, version := 1,
    createdAt := 0, updatedAt := 0, lastAccessedAt := 0 }

/-- The store holding only `c4Engram`. -/
def c4State : StoreState := { engrams := [c4Engram], synapses := [], chronicles := [], nextId := 1 }

/-- **C4 counterexample.** `SqliteStore.updateEngram` performs no
clamping: updating the engram's signal to 1.5 stores 1.5, which is
outside [0, 1].  (`createEngram` likewise inserts `input.signal ?? 0.5`
verbatim.) -/
theorem c4_update_stores_unclamped_signal :
    ((SqliteStore.updateEngram "engram-0" { signal := some (3/2) } 7 c4State).1.map
        (fun e => e.signal)) = some (3/2)
    ∧ ¬ (((3:ℚ)/2) ≤ 1) := by
  constructor
  · norm_num [SqliteStore.updateEngram, SqliteStore.EngramUpdateInput.isEmpty,
      SqliteStore.applyEngramUpdate, SqliteStore.getEngram, c4State, c4Engram,
      List.find?, List.map]
  · norm_num

/-- **C4 (amended).** Signals stay in [0, 1] across any sequence of
engram writes *provided* every caller-supplied signal lies in [0, 1],
every reinforcement boost is non-negative and every decay factor/floor
lies in [0, 1]: `reinforceEngram` clamps at 1 and `decayEngrams` floors
at `minSignal`, but `createEngram`/`updateEngram` store the supplied
signal unclamped, so the range is not re-established at those writes. -/
theorem c4_signals_in_range_of_bounded_writes (ops : List EngramOp) (s : StoreState)
    (hops : ∀ op ∈ ops, op.wellBounded) (h0 : signalsInRange s) :
    signalsInRange (applyOps ops s) := by
  induction ops generalizing s with
  | nil => exact h0
  | cons op ops ih =>
    exact ih _ (fun o ho => hops o (List.mem_cons_of_mem _ ho))
      (EngramOp.apply_signalsInRange op s (hops op (List.mem_cons_self _ _)) h0)

/-- Witness for `c4_signals_in_range_of_bounded_writes`: a concrete
create/reinforce/decay/update sequence from the empty store. -/
theorem c4_signals_in_range_witness :
    signalsInRange (applyOps
      [.create { ownerId := "u", content := "memory" } "h0" [1] 0,
       .reinforce "engram-0" (6/10) 1,
       .decay "u" (9/10) (1/100) 2,
       .update "engram-0" { signal := some (1/4) } 3,
       .access "engram-0" 4] StoreState.empty) := by
  refine c4_signals_in_range_of_bounded_writes _ _ ?_ ?_
  · intro op hop
    simp only [List.mem_cons, List.not_mem_nil, or_false] at hop
    rcases hop with rfl | rfl | rfl | rfl | rfl <;>
      simp [EngramOp.wellBounded] <;> norm_num
  · intro e he
    simp [StoreState.empty] at he

/-! ## C10 — access stamping -/

/-- **C10.** `MemoryService.getEngram` stamps every successful fetch:
when the id resolves, the stored engram's `accessCount` rises by exactly
one and `lastAccessedAt` becomes the call time while every other field
(content, hash, strand, tags, metadata, embedding, signal, pulseRate,
version, createdAt, updatedAt) is untouched, other engrams and the
synapse/chronicle tables are untouched, and the pre-stamp snapshot is
returned; when the id is absent, the whole state is unchanged. -/
theorem c10_getEngram_access_stamping (id : String) (now : ℤ) (s : StoreState) :
    (∀ e, SqliteStore.getEngram id s = some e →
      (MemoryService.getEngram id now s).1 = some e ∧
      SqliteStore.getEngram id (MemoryService.getEngram id now s).2 =
        some { e with accessCount := e.accessCount + 1, lastAccessedAt := now } ∧
      (∀ e' ∈ s.engrams, e'.id ≠ id → e' ∈ (MemoryService.getEngram id now s).2.engrams) ∧
      (MemoryService.getEngram id now s).2.synapses = s.synapses ∧
      (MemoryService.getEngram id now s).2.chronicles = s.chronicles) ∧
    (SqliteStore.getEngram id s = none → MemoryService.getEngram id now s = (none, s)) := by
  constructor
  · intro e he
    have hstamp : (MemoryService.getEngram id now s).2 = SqliteStore.recordAccess id now s := by
      simp [MemoryService.getEngram, he]
    have hfst : (MemoryService.getEngram id now s).1 = some e := by
      simp [MemoryService.getEngram, he]
    have hpred : ∀ x : Engram,
        ((if x.id = id then { x with accessCount := x.accessCount + 1, lastAccessedAt := now }
          else x).id = id) = (x.id = id) := by
      intro x; by_cases hx : x.id = id <;> simp [hx]
    have hkey : (e.id = id) = true := by
      simpa using List.find?_some he
    refine ⟨hfst, ?_, ?_, by simp [hstamp, SqliteStore.recordAccess], by
      simp [hstamp, SqliteStore.recordAccess]⟩
    · rw [hstamp]
      simp only [SqliteStore.recordAccess, SqliteStore.getEngram]
      have := find?_map_pred
        (fun x : Engram =>
          if x.id = id then { x with accessCount := x.accessCount + 1, lastAccessedAt := now }
          else x)
        (fun x : Engram => x.id = id) (by simpa using hpred) s.engrams
      simp only [SqliteStore.getEngram] at he
      rw [this, he]
      simp [show e.id = id by simpa using hkey]
    · intro e' he' hne
      rw [hstamp]
      simp only [SqliteStore.recordAccess]
      exact List.mem_map.mpr ⟨e', he', by simp [hne]⟩
  · intro he
    simp [MemoryService.getEngram, he]

/-- Witness for `c10_getEngram_access_stamping` on the one-engram store
`c4State`. -/
theorem c10_getEngram_access_stamping_witness :
    (MemoryService.getEngram "engram-0" 9 c4State).1 = some c4Engram ∧
    SqliteStore.getEngram "engram-0" (MemoryService.getEngram "engram-0" 9 c4State).2 =
      some { c4Engram with accessCount := c4Engram.accessCount + 1, lastAccessedAt := 9 } := by
  have h := (c10_getEngram_access_stamping "engram-0" 9 c4State).1 c4Engram
    (by simp [SqliteStore.getEngram, c4State, List.find?, c4Engram])
  exact ⟨h.1, h.2.1⟩

/-! ## C2 — chronicle supersession in `recordFact` -/

/-- The chronicles of `(ownerId, entity, attribute)` that are current at
`now` — the row set inspected by `getCurrentFact`. -/
def currentForTuple (ownerId entity attr : String) (now : ℤ) (s : StoreState) :
    List Chronicle :=
  s.chronicles.filter (fun c =>
    c.ownerId = ownerId ∧ c.entity = entity ∧ c.attr = attr ∧
      SqliteStore.chronicleCurrentAt now c)

/-- `getCurrentFact` picks from exactly the `currentForTuple` rows. -/
theorem getCurrentFact_eq_head (ownerId entity attr : String) (now : ℤ) (s : StoreState) :
    SqliteStore.getCurrentFact ownerId entity attr now s =
      ((currentForTuple ownerId entity attr now s).mergeSort
        (fun a b => a.effectiveFrom ≥ b.effectiveFrom)).head? := rfl

/-- **C2 counterexample.** A `recordFact` call that omits
`effectiveFrom` but supplies an `effectiveUntil` in the past inserts a
*closed* chronicle (`effectiveUntil = 50`, not `null`), and afterwards
*zero* chronicles of the tuple are current — not exactly one. -/
theorem c2_recordFact_with_until_not_current :
    ((TemporalService.recordFact
        { ownerId := "u", entity := "speaker", attr := "phone", value := "Samsung",
          effectiveUntil := some 50 } 100 StoreState.empty).1.effectiveUntil = some 50)
    ∧ (currentForTuple "u" "speaker" "phone" 100
        (TemporalService.recordFact
          { ownerId := "u", entity := "speaker", attr := "phone", value := "Samsung",
            effectiveUntil := some 50 } 100 StoreState.empty).2).length = 0 := by
  constructor
  · norm_num [TemporalService.recordFact, SqliteStore.getCurrentFact, StoreState.empty,
      SqliteStore.createChronicle]
  · norm_num [TemporalService.recordFact, SqliteStore.getCurrentFact, StoreState.empty,
      SqliteStore.createChronicle, currentForTuple, SqliteStore.chronicleCurrentAt,
      List.filter]

/-- **C2 (amended).** For a `recordFact` call in which neither
`effectiveFrom` nor `effectiveUntil` is supplied, starting from a state
in which at most one chronicle of `(ownerId, entity, attribute)` is
current: the prior current chronicle (if any) gets `effectiveUntil`
set to the call time before the insert, the new chronicle carries
`effectiveFrom = now` and `effectiveUntil = null`, and afterwards it is
the unique current chronicle of the tuple. -/
theorem c2_recordFact_supersession (input : ChronicleCreateInput) (now : ℤ) (s : StoreState)
    (hFrom : input.effectiveFrom = none) (hUntil : input.effectiveUntil = none)
    (hPre : (currentForTuple input.ownerId input.entity input.attr now s).length ≤ 1) :
    (TemporalService.recordFact input now s).1.effectiveFrom = now ∧
    (TemporalService.recordFact input now s).1.effectiveUntil = none ∧
    currentForTuple input.ownerId input.entity input.attr now
        (TemporalService.recordFact input now s).2 =
      [(TemporalService.recordFact input now s).1] ∧
    (∀ c ∈ currentForTuple input.ownerId input.entity input.attr now s,
      ∃ c' ∈ (TemporalService.recordFact input now s).2.chronicles,
        c'.id = c.id ∧ c'.effectiveUntil = some now) := by
  have hcur : ∀ t : ℕ, SqliteStore.chronicleCurrentAt now
      { id := "chronicle-" ++ toString t, ownerId := input.ownerId,
        entity := input.entity, attr := input.attr, value := input.value,
        certainty := input.certainty.getD 1, effectiveFrom := now,
        effectiveUntil := none, recordedAt := now,
        metadata := input.metadata.getD [] } = true := by
    intro t
    simp [SqliteStore.chronicleCurrentAt]
  cases hex : SqliteStore.getCurrentFact input.ownerId input.entity input.attr now s with
  | none =>
    have hrows : currentForTuple input.ownerId input.entity input.attr now s = [] := by
      rw [getCurrentFact_eq_head] at hex
      have hnil := List.head?_eq_none_iff.mp hex
      have := (List.mergeSort_perm
        (currentForTuple input.ownerId input.entity input.attr now s)
        (fun a b => a.effectiveFrom ≥ b.effectiveFrom)).length_eq
      rw [hnil] at this
      exact List.length_eq_zero.mp this.symm
    have hstep : TemporalService.recordFact input now s =
        SqliteStore.createChronicle input now s := by
      simp [TemporalService.recordFact, hex]
    rw [hstep]
    simp only [SqliteStore.createChronicle, hFrom, hUntil, Option.getD_none]
    refine ⟨by trivial, by trivial, ?_, ?_⟩
    · simp only [currentForTuple, List.filter_append]
      rw [show s.chronicles.filter _ =
        currentForTuple input.ownerId input.entity input.attr now s from rfl, hrows]
      simp [hcur s.nextId]
    · intro c hc
      rw [hrows] at hc
      cases hc
  | some ex =>
    have hmem : ex ∈ currentForTuple input.ownerId input.entity input.attr now s := by
      rw [getCurrentFact_eq_head] at hex
      exact (List.mergeSort_perm _ _).mem_iff.mp (List.mem_of_mem_head? hex)
    have hrows : currentForTuple input.ownerId input.entity input.attr now s = [ex] :=
      eq_singleton_of_length_le_one hPre hmem
    have hexs : ex ∈ s.chronicles := List.mem_of_mem_filter hmem
    have hstep : TemporalService.recordFact input now s =
        SqliteStore.createChronicle input now
          (SqliteStore.updateChronicle ex.id { effectiveUntil := some (some now) } s).2 := by
      simp [TemporalService.recordFact, hex, hFrom]
    have hupd : (SqliteStore.updateChronicle ex.id { effectiveUntil := some (some now) } s).2 =
        { s with chronicles := s.chronicles.map (fun c =>
            if c.id = ex.id then
              { c with effectiveUntil := some now }
            else c) } := by
      simp [SqliteStore.updateChronicle, SqliteStore.ChronicleUpdateInput.isEmpty]
    have hnone : ∀ c0 ∈ s.chronicles,
        ¬ (fun c => decide (c.ownerId = input.ownerId ∧ c.entity = input.entity ∧
            c.attr = input.attr ∧ SqliteStore.chronicleCurrentAt now c))
          ((fun c => if c.id = ex.id then { c with effectiveUntil := some now } else c) c0)
            = true := by
      intro c0 hc0
      by_cases hid : c0.id = ex.id
      · simp [hid, SqliteStore.chronicleCurrentAt]
      · simp only [hid, if_false]
        intro hcontra
        have : c0 ∈ currentForTuple input.ownerId input.entity input.attr now s :=
          List.mem_filter.mpr ⟨hc0, hcontra⟩
        rw [hrows] at this
        exact hid (by rw [List.mem_singleton.mp this])
    rw [hstep, hupd]
    simp only [SqliteStore.createChronicle, hFrom, hUntil, Option.getD_none]
    refine ⟨by trivial, by trivial, ?_, ?_⟩
    · simp only [currentForTuple, List.filter_append, List.filter_map]
      have h1 : (s.chronicles.map (fun c =>
          if c.id = ex.id then { c with effectiveUntil := some now } else c)).filter
            (fun c => decide (c.ownerId = input.ownerId ∧ c.entity = input.entity ∧
              c.attr = input.attr ∧ SqliteStore.chronicleCurrentAt now c)) = [] := by
        rw [List.filter_eq_nil_iff]
        intro a ha
        rcases List.mem_map.mp ha with ⟨c0, hc0, rfl⟩
        exact hnone c0 hc0
      rw [← List.filter_map, h1]
      simp [hcur s.nextId]
    · intro c hc
      rw [hrows] at hc
      rcases List.mem_singleton.mp hc with rfl
      refine ⟨{ c with effectiveUntil := some now }, ?_, rfl, rfl⟩
      simp only [List.mem_append]
      exact Or.inl (List.mem_map.mpr ⟨c, hexs, by simp⟩)

/-- A current chronicle for the supersession witness. -/
def c2Chronicle : Chronicle :=
  { id := "chronicle-0", ownerId := "u", entity := "speaker", attr := "phone",
    value := "Samsung", certainty := 1, effectiveFrom := 10, effectiveUntil := none,
    recordedAt := 10, metadata := [] }

/-- A store holding only `c2Chronicle`. -/
def c2State : StoreState := { engrams := [], synapses := [], chronicles := [c2Chronicle], nextId := 1 }

/-- Witness for `c2_recordFact_supersession`: recording a new phone value
over the current Samsung chronicle. -/
theorem c2_recordFact_supersession_witness :
    (TemporalService.recordFact
      { ownerId := "u", entity := "speaker", attr := "phone", value := "iPhone" }
      100 c2State).1.effectiveUntil = none ∧
    currentForTuple "u" "speaker" "phone" 100
        (TemporalService.recordFact
          { ownerId := "u", entity := "speaker", attr := "phone", value := "iPhone" }
          100 c2State).2 =
      [(TemporalService.recordFact
        { ownerId := "u", entity := "speaker", attr := "phone", value := "iPhone" }
        100 c2State).1] := by
  have h := c2_recordFact_supersession
    { ownerId := "u", entity := "speaker", attr := "phone", value := "iPhone" }
    100 c2State rfl rfl
    (by norm_num [currentForTuple, c2State, c2Chronicle, List.filter,
      SqliteStore.chronicleCurrentAt])
  exact ⟨h.2.1, h.2.2.1⟩

/-! ## C8 — extractor fallback behavior -/

/-- **C8 counterexample.** When the provider returns an *unknown strand*
together with a well-formed facts array and temporal facts,
`FactExtractionService.extract` keeps the extracted facts and temporal
facts and only the strand falls back to `general` — it does not return
the raw input as a single fact with no temporal facts, as the claim
states for this case. -/
theorem c8_unknown_strand_keeps_extracted_facts :
    FactExtractionService.extract
        (.ok { facts := some [some "a1", some "b2"], strand := "weird",
               temporalFacts := some [some ⟨"speaker", "phone", "Samsung"⟩] })
        "raw input"
      = { facts := ["a1", "b2"], strand := .general,
          temporalFacts := [⟨"speaker", "phone", "Samsung"⟩] }
    ∧ (["a1", "b2"] ≠ ["raw input"]
        ∧ ([(⟨"speaker", "phone", "Samsung"⟩ : TemporalFact)]) ≠ ([] : List TemporalFact)) := by
  refine ⟨by decide, by simp, by simp⟩

/-- **C8 (amended).** On a provider *exception* the extractor returns
exactly the raw input as a single fact with strand `general` and no
temporal facts; on an *unknown strand* (with a well-formed, non-empty
facts array of non-empty strings and well-formed temporal facts) only
the strand falls back to `general` while the extracted facts and
temporal facts are kept. -/
theorem c8_extract_fallback_behavior (content : String) (r : RawExtraction)
    (hstrand : strandOfString r.strand = none)
    (l : List String) (hfacts : r.facts = some (l.map some))
    (hne : l ≠ []) (hnonempty : ∀ f ∈ l, f.length > 0)
    (tl : List TemporalFact) (htf : r.temporalFacts = some (tl.map some)) :
    FactExtractionService.extract (.error ()) content =
      { facts := [content], strand := .general, temporalFacts := [] } ∧
    FactExtractionService.extract (.ok r) content =
      { facts := l, strand := .general, temporalFacts := tl } := by
  refine ⟨rfl, ?_⟩
  have hmapsome : ∀ {α : Type} (xs : List α), (xs.map Option.some).filterMap id = xs := by
    intro α xs
    induction xs with
    | nil => rfl
    | cons x t ih => simp [ih]
  have hfil : ((l.map some).filterMap id).filter (fun f => f.length > 0) = l := by
    rw [hmapsome]
    exact List.filter_eq_self.mpr (fun a ha => by simpa using hnonempty a ha)
  have htl : (tl.map some).filterMap id = tl := hmapsome tl
  simp only [FactExtractionService.extract, hstrand, hfacts, htf, hfil, htl,
    Option.getD_none]
  have : l.length ≠ 0 := fun h => hne (List.length_eq_zero.mp h)
  simp [this]

/-- Witness for `c8_extract_fallback_behavior` at a concrete unknown
strand. -/
theorem c8_extract_fallback_behavior_witness :
    FactExtractionService.extract (.error ()) "some text" =
      { facts := ["some text"], strand := .general, temporalFacts := [] } ∧
    FactExtractionService.extract
        (.ok { facts := some [some "x1"], strand := "mysterious",
               temporalFacts := some [] }) "some text" =
      { facts := ["x1"], strand := .general, temporalFacts := [] } :=
  c8_extract_fallback_behavior "some text"
    { facts := some [some "x1"], strand := "mysterious", temporalFacts := some [] }
    (by simp [strandOfString, STRANDS, Strand.name]) ["x1"] rfl (by simp)
    (by intro f hf; rcases List.mem_singleton.mp hf with rfl; decide) [] rfl

/-! ## C5 — synapse invariants under `addMemory` -/

/-- **C5.** Contrary to the invariant `sourceId ≠ targetId`, an
`addMemory` ingestion in which two extracted facts deduplicate to the
same engram stores a *self*-synapse: with extraction yielding
`["same", "same"]` on an empty store, the first fact creates
`engram-0`, the second hash-matches it, `storedEngrams` holds the same
engram twice, and the pair loop calls `createSynapse` with
`sourceId = targetId = "engram-0"` (weight 0.5). -/
theorem c5_addMemory_forms_self_synapse :
    (MemoryService.addMemory (fun _ => ⟨["same", "same"], .general, []⟩)
        (fun _ => [1]) (fun s => s) (fun _ => 1)
        { ownerId := "u", content := "same same" } 0 StoreState.empty).2.synapses =
      [{ id := "synapse-1", sourceId := "engram-0", targetId := "engram-0",
         ownerId := "u", weight := 1/2, formedAt := 0, reinforcedAt := 0 }]
    ∧ ∃ sy ∈ (MemoryService.addMemory (fun _ => ⟨["same", "same"], .general, []⟩)
        (fun _ => [1]) (fun s => s) (fun _ => 1)
        { ownerId := "u", content := "same same" } 0 StoreState.empty).2.synapses,
        sy.sourceId = sy.targetId := by
  have heval : (MemoryService.addMemory (fun _ => ⟨["same", "same"], .general, []⟩)
      (fun _ => [1]) (fun s => s) (fun _ => 1)
      { ownerId := "u", content := "same same" } 0 StoreState.empty).2.synapses =
      [{ id := "synapse-1", sourceId := "engram-0", targetId := "engram-0",
         ownerId := "u", weight := 1/2, formedAt := 0, reinforcedAt := 0 }] := by
    norm_num [MemoryService.addMemory, DeduplicationService.checkDuplicate,
    SqliteStore.findByContentHash, SqliteStore.vectorSearch, SqliteStore.createEngram,
    SqliteStore.createSynapse, SqliteStore.getEngram, DecayService.reinforceAccess,
    SqliteStore.reinforceEngram, SqliteStore.recordAccess, StoreState.empty,
      allPairs, List.find?, List.filter, List.foldl, List.map, cosineSimilarity]
    exact ⟨rfl, rfl⟩
  exact ⟨heval, by rw [heval]; exact ⟨_, List.mem_singleton.mpr rfl, rfl⟩⟩

/-! ## C9 — the BM25 scorer implements Okapi BM25

Supporting lemmas relate the source's `Map`-based memoization
(`computeTermFrequencies`, the `df` map) to direct counts, and the
accumulating fold to a sum. -/

/-- `find?` over the in-place update of `Map.set` when the key exists. -/
theorem find?_fst_map_set (m : List (String × ℚ)) (k : String) (v : ℚ) :
    (m.map (fun p => if p.1 = k then (k, v) else p)).find? (fun p => p.1 = k)
      = if mapHasQ m k then some (k, v) else none := by
  induction m with
  | nil => rfl
  | cons p t ih =>
    by_cases hp : p.1 = k
    · simp [List.find?_cons, hp, mapHasQ]
    · have hd : (decide (p.1 = k)) = false := by simp [hp]
      simp [List.find?_cons, hp, mapHasQ, ih, hd]
      rw [hd, Bool.false_or]

/-- `find?` for a different key is unaffected by the in-place update. -/
theorem find?_fst_map_ne (m : List (String × ℚ)) (k : String) (v : ℚ) (t : String)
    (h : t ≠ k) :
    (m.map (fun p => if p.1 = k then (k, v) else p)).find? (fun p => p.1 = t)
      = m.find? (fun p => p.1 = t) := by
  induction m with
  | nil => rfl
  | cons p tl ih =>
    by_cases hp : p.1 = k
    · simp [List.find?_cons, hp, Ne.symm h, h, ih]
    · by_cases hpt : p.1 = t
      · simp [List.find?_cons, hp, hpt, h]
      · simp [List.find?_cons, hp, hpt, ih]

/-- Looking up the key just set. -/
theorem mapGetQ_set_self (m : List (String × ℚ)) (k : String) (v : ℚ) :
    mapGetQ (mapSetQ m k v) k = some v := by
  unfold mapSetQ
  by_cases hhas : mapHasQ m k
  · rw [if_pos hhas]
    unfold mapGetQ
    rw [find?_fst_map_set, if_pos hhas]
    rfl
  · rw [if_neg hhas]
    unfold mapGetQ
    have hnone : m.find? (fun p => p.1 = k) = none := by
      rw [List.find?_eq_none]
      intro p hp hdec
      refine hhas ?_
      simp only [mapHasQ, List.any_eq_true]
      exact ⟨p, hp, hdec⟩
    rw [List.find?_append, hnone, Option.none_or]
    simp [List.find?_cons]

/-- Looking up a different key after a set. -/
theorem mapGetQ_set_ne (m : List (String × ℚ)) (k : String) (v : ℚ) (t : String)
    (h : t ≠ k) : mapGetQ (mapSetQ m k v) t = mapGetQ m t := by
  unfold mapSetQ
  by_cases hhas : mapHasQ m k
  · rw [if_pos hhas]
    unfold mapGetQ
    rw [find?_fst_map_ne m k v t h]
  · rw [if_neg hhas]
    unfold mapGetQ
    rw [List.find?_append]
    have : ([(k, v)] : List (String × ℚ)).find? (fun p => p.1 = t) = none := by
      simp [List.find?_cons, Ne.symm h]
    rw [this, Option.or_none]

/-- `Map.has` agrees with a defined lookup. -/
theorem mapHasQ_iff (m : List (String × ℚ)) (k : String) :
    mapHasQ m k = true ↔ (mapGetQ m k).isSome := by
  unfold mapHasQ mapGetQ
  have hmap : ∀ o : Option (String × ℚ), (o.map (fun p => p.2)).isSome = o.isSome := by
    intro o; cases o <;> rfl
  rw [List.any_eq_true, hmap, List.find?_isSome]

/-- `Map.set` preserves key presence. -/
theorem mapHasQ_set (m : List (String × ℚ)) (k : String) (v : ℚ) (t : String)
    (h : mapHasQ m t = true) : mapHasQ (mapSetQ m k v) t = true := by
  by_cases hk : t = k
  · subst hk
    rw [mapHasQ_iff, mapGetQ_set_self]
    rfl
  · rw [mapHasQ_iff, mapGetQ_set_ne m k v t hk, ← mapHasQ_iff]
    exact h

/-- The key just set is present. -/
theorem mapHasQ_set_self (m : List (String × ℚ)) (k : String) (v : ℚ) :
    mapHasQ (mapSetQ m k v) k = true := by
  rw [mapHasQ_iff, mapGetQ_set_self]
  rfl

/-- The term-frequency fold counts occurrences. -/
theorem computeTermFrequencies_fold (ts : List String) (m : List (String × ℚ))
    (t : String) :
    (mapGetQ (ts.foldl (fun m token => mapSetQ m token ((mapGetQ m token).getD 0 + 1)) m) t).getD 0
      = (mapGetQ m t).getD 0 + (ts.count t : ℚ) := by
  induction ts generalizing m with
  | nil => simp
  | cons token rest ih =>
    rw [List.foldl_cons, ih]
    by_cases ht : t = token
    · subst ht
      rw [mapGetQ_set_self]
      simp [List.count_cons, add_assoc, add_comm]
    · rw [mapGetQ_set_ne _ _ _ _ ht]
      have : rest.count t = (token :: rest).count t := by
        simp [List.count_cons, Ne.symm ht, ht]
      rw [this]

/-- `computeTermFrequencies` realizes `List.count`. -/
theorem computeTermFrequencies_get (ts : List String) (t : String) :
    (mapGetQ (computeTermFrequencies ts) t).getD 0 = (ts.count t : ℚ) := by
  unfold computeTermFrequencies
  rw [computeTermFrequencies_fold]
  simp [mapGetQ]

/-- The counting fold of the `df` computation is a filtered length. -/
theorem count_fold_eq_filter_length (l : List (List String)) (t : String) (n : ℚ) :
    l.foldl (fun count tokens => if tokens.contains t then count + 1 else count) n
      = n + ((l.filter (fun ts => ts.contains t)).length : ℚ) := by
  induction l generalizing n with
  | nil => simp
  | cons ts rest ih =>
    rw [List.foldl_cons]
    cases hc : ts.contains t with
    | true =>
      rw [ih, List.filter_cons, hc]
      simp only [if_true, List.length_cons]
      push_cast
      ring
    | false => rw [ih, List.filter_cons, hc]; simp

/-- Entries of the memoized `df` map hold the direct document count. -/
theorem dfMap_invariant (qts : List String) (docTokens : List (List String))
    (m : List (String × ℚ))
    (hm : ∀ k, mapGetQ m k = none ∨
      mapGetQ m k = some ((docTokens.filter (fun ts => ts.contains k)).length : ℚ)) :
    ∀ k, mapGetQ (qts.foldl (fun m token =>
        if mapHasQ m token then m
        else mapSetQ m token (docTokens.foldl
          (fun count tokens => if tokens.contains token then count + 1 else count) 0)) m) k
      = none ∨
      mapGetQ (qts.foldl (fun m token =>
        if mapHasQ m token then m
        else mapSetQ m token (docTokens.foldl
          (fun count tokens => if tokens.contains token then count + 1 else count) 0)) m) k
      = some ((docTokens.filter (fun ts => ts.contains k)).length : ℚ) := by
  induction qts generalizing m with
  | nil => exact hm
  | cons q rest ih =>
    rw [List.foldl_cons]
    cases hq : mapHasQ m q with
    | true => simpa [hq] using ih m hm
    | false =>
      simp only [hq, Bool.false_eq_true, if_false]
      refine ih _ ?_
      intro k
      by_cases hk : k = q
      · subst hk
        rw [mapGetQ_set_self, count_fold_eq_filter_length]
        right
        norm_num
      · rw [mapGetQ_set_ne _ _ _ _ hk]
        exact hm k

/-- Every processed query token is present in the `df` map. -/
theorem dfMap_has (qts : List String) (docTokens : List (List String))
    (m : List (String × ℚ)) (t : String) (ht : t ∈ qts ∨ mapHasQ m t = true) :
    mapHasQ (qts.foldl (fun m token =>
        if mapHasQ m token then m
        else mapSetQ m token (docTokens.foldl
          (fun count tokens => if tokens.contains token then count + 1 else count) 0)) m) t
      = true := by
  induction qts generalizing m with
  | nil =>
    rcases ht with h | h
    · cases h
    · exact h
  | cons q rest ih =>
    rw [List.foldl_cons]
    by_cases htq : t = q
    · subst htq
      cases hq : mapHasQ m t with
      | true => exact ih m (Or.inr hq)
      | false =>
        simp only [hq, Bool.false_eq_true, if_false]
        exact ih _ (Or.inr (mapHasQ_set_self m t _))
    · rcases ht with h | h
      · rcases List.mem_cons.mp h with h' | h'
        · exact absurd h' htq
        · cases hq : mapHasQ m q with
          | true => exact ih m (Or.inl h')
          | false =>
            simp only [hq, Bool.false_eq_true, if_false]
            exact ih _ (Or.inl h')
      · cases hq : mapHasQ m q with
        | true => exact ih m (Or.inr h)
        | false =>
          simp only [hq, Bool.false_eq_true, if_false]
          exact ih _ (Or.inr (mapHasQ_set m q _ t h))

/-- For a query token, the memoized `df` lookup is the direct count. -/
theorem dfMap_get (qts : List String) (docTokens : List (List String)) (t : String)
    (ht : t ∈ qts) :
    (mapGetQ (BM25Scorer.dfMap qts docTokens) t).getD 0
      = ((docTokens.filter (fun ts => ts.contains t)).length : ℚ) := by
  unfold BM25Scorer.dfMap
  have hinv := dfMap_invariant qts docTokens [] (fun k => Or.inl rfl) t
  have hhas := dfMap_has qts docTokens [] t (Or.inl ht)
  rcases hinv with h | h
  · rw [mapHasQ_iff, h] at hhas
    simp at hhas
  · rw [h]
    rfl

/-- The accumulating score fold is the sum of a map. -/
theorem foldl_guarded_sum (l : List α) (c : α → Prop) [DecidablePred c]
    (v : α → ℚ) (n : ℚ) :
    l.foldl (fun sc x => if c x then sc else sc + v x) n
      = n + (l.map (fun x => if c x then 0 else v x)).sum := by
  induction l generalizing n with
  | nil => simp
  | cons x rest ih =>
    rw [List.foldl_cons]
    by_cases hx : c x
    · rw [ih]; simp [hx]
    · rw [ih]; simp [hx]; ring

/-- `BM25Scorer.score` computes the Okapi formula at every document, for
any parameters. -/
theorem bm25_score_eq_okapi (lg : ℚ → ℚ) (k1 b : ℚ) (query : String)
    (documents : List BM25Document) :
    BM25Scorer.score lg k1 b query documents =
      documents.map (fun d => ⟨d.id, okapiBm25 lg k1 b query documents d⟩) := by
  by_cases hdoc : documents.length = 0
  · rw [List.length_eq_zero] at hdoc
    subst hdoc
    rfl
  · by_cases hq : (tokenize query).length = 0
    · rw [List.length_eq_zero] at hq
      simp only [BM25Scorer.score, hq, List.length_nil, if_neg hdoc, if_pos rfl]
      apply List.map_congr_left
      intro d _
      simp [okapiBm25, hq]
    · simp only [BM25Scorer.score, if_neg hdoc, if_neg hq]
      apply List.map_congr_left
      intro doc _
      have hsum := foldl_guarded_sum (tokenize query)
        (fun term => (mapGetQ (computeTermFrequencies (tokenize doc.content)) term).getD 0 = 0
          ∨ (mapGetQ (BM25Scorer.dfMap (tokenize query)
              (documents.map (fun d => tokenize d.content))) term).getD 0 = 0)
        (fun term =>
          lg (((documents.length : ℚ) -
                (mapGetQ (BM25Scorer.dfMap (tokenize query)
                  (documents.map (fun d => tokenize d.content))) term).getD 0 + 1/2) /
              ((mapGetQ (BM25Scorer.dfMap (tokenize query)
                  (documents.map (fun d => tokenize d.content))) term).getD 0 + 1/2) + 1) *
            (((mapGetQ (computeTermFrequencies (tokenize doc.content)) term).getD 0 * (k1 + 1)) /
              ((mapGetQ (computeTermFrequencies (tokenize doc.content)) term).getD 0 +
                k1 * (1 - b + b * (((tokenize doc.content).length : ℚ) /
                  (((documents.map (fun d => tokenize d.content)).map
                      (fun t => (t.length : ℚ))).sum / (documents.length : ℚ)))))))
        0
      rw [hsum, zero_add]
      show BM25Result.mk doc.id _ = BM25Result.mk doc.id _
      congr 1
      apply congrArg
      apply List.map_congr_left
      intro term hterm
      rw [computeTermFrequencies_get, dfMap_get _ _ _ hterm]

/-- **C9.** `BM25Scorer.score` with `k1 = 1.5`, `b = 0.75` assigns every
candidate document its Okapi BM25 score: document frequency over the
candidate set only, `IDF = log((N − df + 0.5)/(df + 0.5) + 1)`, length
normalization by the candidate set's mean document length; an empty
candidate set yields `[]` and an empty tokenized query yields all-zero
scores. -/
theorem c9_bm25_is_okapi (lg : ℚ → ℚ) (query : String) (documents : List BM25Document) :
    BM25Scorer.score lg (3/2) (3/4) query documents =
      documents.map (fun d => ⟨d.id, okapiBm25 lg (3/2) (3/4) query documents d⟩) ∧
    BM25Scorer.score lg (3/2) (3/4) query [] = [] ∧
    (tokenize query = [] →
      ∀ r ∈ BM25Scorer.score lg (3/2) (3/4) query documents, r.score = 0) := by
  refine ⟨bm25_score_eq_okapi lg (3/2) (3/4) query documents, rfl, ?_⟩
  intro hq r hr
  rw [bm25_score_eq_okapi] at hr
  rcases List.mem_map.mp hr with ⟨d, _, rfl⟩
  simp [okapiBm25, hq]

/-- Witness for `c9_bm25_is_okapi`: the formula at a concrete two-document
candidate set, and the all-zero result for a stopwords-only query. -/
theorem c9_bm25_is_okapi_witness :
    (BM25Scorer.score (fun _ => 1) (3/2) (3/4) "green tea"
        [⟨"d0", "green tea"⟩, ⟨"d1", "coffee"⟩] =
      [⟨"d0", okapiBm25 (fun _ => 1) (3/2) (3/4) "green tea"
          [⟨"d0", "green tea"⟩, ⟨"d1", "coffee"⟩] ⟨"d0", "green tea"⟩⟩,
       ⟨"d1", okapiBm25 (fun _ => 1) (3/2) (3/4) "green tea"
          [⟨"d0", "green tea"⟩, ⟨"d1", "coffee"⟩] ⟨"d1", "coffee"⟩⟩])
    ∧ (BM25Scorer.score (fun _ => 1) (3/2) (3/4) "the the"
        [⟨"d0", "green tea"⟩]).map (fun r => r.score) = [0] := by
  constructor
  · exact (c9_bm25_is_okapi (fun _ => 1) "green tea"
      [⟨"d0", "green tea"⟩, ⟨"d1", "coffee"⟩]).1
  · have htok : tokenize "the the" = [] := by decide
    have h := (c9_bm25_is_okapi (fun _ => 1) "the the" [⟨"d0", "green tea"⟩]).1
    rw [h]
    simp [okapiBm25, htok]

/-! ## C7 — vector-search scores consumed by the pipeline -/

/-- A self dot product is non-negative. -/
theorem dotProd_self_nonneg (a : List ℚ) : 0 ≤ dotProd (a.zip a) := by
  induction a with
  | nil => simp [dotProd]
  | cons x t ih =>
    rw [show (x :: t).zip (x :: t) = (x, x) :: t.zip t from rfl]
    simp only [dotProd]
    nlinarith [sq_nonneg x, ih]

/-- Cauchy–Schwarz for zipped rational lists. -/
theorem dotProd_sq_le (a b : List ℚ) :
    (dotProd (a.zip b))^2 ≤ dotProd (a.zip a) * dotProd (b.zip b) := by
  induction a generalizing b with
  | nil => simp [dotProd, List.zip_nil_left]
  | cons x t ih =>
    cases b with
    | nil => simp [dotProd, List.zip_nil_right]
    | cons y u =>
      rw [show (x :: t).zip (y :: u) = (x, y) :: t.zip u from rfl,
          show (x :: t).zip (x :: t) = (x, x) :: t.zip t from rfl,
          show (y :: u).zip (y :: u) = (y, y) :: u.zip u from rfl]
      simp only [dotProd]
      have hA := dotProd_self_nonneg t
      have hB := dotProd_self_nonneg u
      have hd := ih u
      by_cases hB0 : dotProd (u.zip u) = 0
      · have hd0 : dotProd (t.zip u) = 0 := by
          nlinarith [sq_nonneg (dotProd (t.zip u)), hd, hB0]
        rw [hB0, hd0]
        nlinarith [mul_nonneg hA (sq_nonneg y)]
      · have hBpos : 0 < dotProd (u.zip u) := lt_of_le_of_ne hB (Ne.symm hB0)
        have hsur : 0 ≤ dotProd (t.zip t) * dotProd (u.zip u) - (dotProd (t.zip u))^2 := by
          linarith
        nlinarith [sq_nonneg (x * dotProd (u.zip u) - y * dotProd (t.zip u)),
          mul_nonneg (add_nonneg (sq_nonneg y) hB) hsur, hBpos]

/-- A square-root dominator usable as a concrete stand-in for
`Math.sqrt` over ℚ (an exact rational square root does not exist, so
theorems assume only the domination property below, which the real
square root satisfies with equality). -/
def sqAbsQ (x : ℚ) : ℚ := |x| + 1

/-- `sqAbsQ` is non-negative and dominates the square root. -/
theorem sqAbsQ_spec : ∀ x : ℚ, 0 ≤ x → 0 ≤ sqAbsQ x ∧ x ≤ (sqAbsQ x)^2 := by
  intro x _
  unfold sqAbsQ
  constructor <;> nlinarith [abs_nonneg x, le_abs_self x]

/-- The raw cosine similarity lies in [−1, 1] whenever `sq` is
non-negative and dominates the square root on non-negative inputs
(`Math.sqrt` satisfies this with equality). -/
theorem cosineSimilarity_bound (sq : ℚ → ℚ) (a b : List ℚ)
    (hsq : ∀ x, 0 ≤ x → 0 ≤ sq x ∧ x ≤ (sq x)^2) :
    -1 ≤ cosineSimilarity sq a b ∧ cosineSimilarity sq a b ≤ 1 := by
  unfold cosineSimilarity
  by_cases hlen : a.length = b.length
  · rw [if_pos hlen]
    by_cases hden : sq (dotProd (a.zip a)) * sq (dotProd (b.zip b)) = 0
    · simp only [if_pos hden]
      norm_num
    · simp only [if_neg hden]
      have hA := dotProd_self_nonneg a
      have hB := dotProd_self_nonneg b
      have hsa := hsq _ hA
      have hsb := hsq _ hB
      have hdenpos : 0 < sq (dotProd (a.zip a)) * sq (dotProd (b.zip b)) :=
        lt_of_le_of_ne (mul_nonneg hsa.1 hsb.1) (Ne.symm hden)
      have hcs := dotProd_sq_le a b
      have hsq2 : dotProd (a.zip a) * dotProd (b.zip b) ≤
          (sq (dotProd (a.zip a)) * sq (dotProd (b.zip b)))^2 := by
        rw [mul_pow]
        exact mul_le_mul hsa.2 hsb.2 hB (sq_nonneg _)
      constructor
      · rw [le_div_iff₀ hdenpos]
        nlinarith [hcs, hsq2, hdenpos]
      · rw [div_le_one hdenpos]
        nlinarith [hcs, hsq2, hdenpos]
  · rw [if_neg hlen]
    norm_num

/-- An engram with a one-dimensional embedding `[1]` for owner `"u"`. -/
def c7Engram : Engram :=
  { id := "engram-0", ownerId := "u", content := "memory", contentHash := "h0",
    strand := .general, tags := [], metadata := [], embedding := [1],
    signal := 1/2, pulseRate := 1/10, accessCount := 0, version := 1,
    createdAt := 0, updatedAt := 0, lastAccessedAt := 0 }

/-- The store holding only `c7Engram`. -/
def c7State : StoreState := { engrams := [c7Engram], synapses := [], chronicles := [], nextId := 1 }

/-- **C7 counterexample.** `SqliteStore.vectorSearch` returns the *raw*
cosine similarity — here −1 for an opposite-direction query — and the
pipeline's candidate filter (step 3, `minScore` defaulting to 0 means
"disabled") hands that score on unchanged: the consumed score is
neither in [0, 1] nor mapped to `(1 + cos)/2 = 0`. -/
theorem c7_pipeline_consumes_raw_cosine :
    SqliteStore.vectorSearch (fun x => x) "u" [-1] 30 none c7State = [(c7Engram, -1)]
    ∧ RetrievalPipeline.filteredCandidates { ownerId := "u", query := "q" }
        [(c7Engram, -1)] = [(c7Engram, -1)]
    ∧ ¬ (0 ≤ (-1 : ℚ)) ∧ ((-1 : ℚ) ≠ (1 + (-1))/2) := by
  refine ⟨?_, ?_, by norm_num, by norm_num⟩
  · norm_num [SqliteStore.vectorSearch, c7State, c7Engram, cosineSimilarity,
      dotProd, List.filter, List.map]
  · norm_num [RetrievalPipeline.filteredCandidates]

/-- **C7 (amended).** Neither store backend maps cosine into [0, 1] and
the engine performs no `(1 + cos)/2` mapping either: every score the
pipeline's candidate filter consumes is exactly a raw store score
(filtering only discards, never rescales), and for the SQLite backend
that raw score is a cosine similarity lying in [−1, 1] (given a
well-behaved square root); scores only reach [0, 1] later through
min-max normalization. -/
theorem c7_vector_scores_raw_cosine (sq : ℚ → ℚ)
    (hsq : ∀ x, 0 ≤ x → 0 ≤ sq x ∧ x ≤ (sq x)^2)
    (ownerId : String) (emb : List ℚ) (limit : ℕ) (strand : Option Strand)
    (s : StoreState) (q : SearchQuery) (vrs : List (Engram × ℚ)) :
    (∀ p ∈ SqliteStore.vectorSearch sq ownerId emb limit strand s,
      p.2 = cosineSimilarity sq emb p.1.embedding ∧ -1 ≤ p.2 ∧ p.2 ≤ 1) ∧
    (∀ p ∈ RetrievalPipeline.filteredCandidates q vrs, p ∈ vrs) := by
  constructor
  · intro p hp
    have hmem : p ∈ (s.engrams.filter (fun e =>
        e.ownerId = ownerId ∧ (∀ st ∈ strand, e.strand = st))).map
          (fun e => (e, cosineSimilarity sq emb e.embedding)) := by
      have h1 := List.mem_of_mem_take hp
      exact (List.mergeSort_perm _ _).mem_iff.mp h1
    rcases List.mem_map.mp hmem with ⟨e, _, rfl⟩
    exact ⟨rfl, cosineSimilarity_bound sq emb e.embedding hsq⟩
  · intro p hp
    unfold RetrievalPipeline.filteredCandidates at hp
    by_cases hm : (q.minScore.getD 0) > 0
    · rw [if_pos hm] at hp
      exact List.mem_of_mem_filter hp
    · rw [if_neg hm] at hp
      exact hp

/-- Witness for `c7_vector_scores_raw_cosine` with `sqAbsQ` as concrete
square-root dominator: the single candidate carries its raw cosine
score, inside [−1, 1]. -/
theorem c7_vector_scores_raw_cosine_witness :
    ((SqliteStore.vectorSearch sqAbsQ "u" [-1] 30 none c7State).map
      (fun p => p.2)).all (fun v => decide (-1 ≤ v) && decide (v ≤ 1)) = true := by
  have h := (c7_vector_scores_raw_cosine sqAbsQ sqAbsQ_spec "u" [-1] 30 none
    c7State { ownerId := "u", query := "q" } []).1
  rw [List.all_eq_true]
  intro v hv
  rcases List.mem_map.mp hv with ⟨p, hp, rfl⟩
  have := h p hp
  simp only [Bool.and_eq_true, decide_eq_true_eq]
  exact ⟨this.2.1, this.2.2⟩

/-! ## C6 — ingesting the same content twice -/

/-- `recordFact` writes only chronicle rows. -/
theorem recordFact_engrams (i : ChronicleCreateInput) (n : ℤ) (st : StoreState) :
    (TemporalService.recordFact i n st).2.engrams = st.engrams := by
  unfold TemporalService.recordFact
  cases hex : SqliteStore.getCurrentFact i.ownerId i.entity i.attr n st with
  | none => simp [SqliteStore.createChronicle]
  | some ex =>
    by_cases hf : i.effectiveFrom.isNone
    · simp [hf, SqliteStore.createChronicle, SqliteStore.updateChronicle,
        SqliteStore.ChronicleUpdateInput.isEmpty]
    · simp [hf, SqliteStore.createChronicle]

/-- The chronicle-recording loop of `addMemory` writes only chronicle
rows. -/
theorem recordFacts_fold_engrams (tfs : List TemporalFact) (ownerId : String)
    (now : ℤ) (st : StoreState) :
    (tfs.foldl (fun st tf =>
      (TemporalService.recordFact
        { ownerId := ownerId, entity := tf.entity, attr := tf.attr,
          value := tf.value } now st).2) st).engrams = st.engrams := by
  induction tfs generalizing st with
  | nil => rfl
  | cons tf rest ih => rw [List.foldl_cons, ih, recordFact_engrams]

/-- For an owner with no stored engrams, deduplication finds nothing. -/
theorem checkDuplicate_none_of_fresh (sq : ℚ → ℚ) (hash : String → String)
    (ownerId content : String) (emb : List ℚ) (s : StoreState)
    (hfresh : ∀ e ∈ s.engrams, e.ownerId ≠ ownerId) :
    DeduplicationService.checkDuplicate sq hash ownerId content emb s = none := by
  unfold DeduplicationService.checkDuplicate
  have hfind : SqliteStore.findByContentHash ownerId (hash content) s = none := by
    unfold SqliteStore.findByContentHash
    rw [List.find?_eq_none]
    intro e he
    simp only [decide_eq_true_eq]
    rintro ⟨h1, -⟩
    exact hfresh e he h1
  have hvec : SqliteStore.vectorSearch sq ownerId emb 5 none s = [] := by
    unfold SqliteStore.vectorSearch
    have hfil : s.engrams.filter
        (fun e => decide (e.ownerId = ownerId ∧ (∀ st ∈ (none : Option Strand), e.strand = st)))
        = [] := by
      rw [List.filter_eq_nil_iff]
      intro e he
      simp only [decide_eq_true_eq]
      rintro ⟨h1, -⟩
      exact hfresh e he h1
    rw [hfil]
    simp
  rw [hfind, hvec]
  rfl

/-- The engram `createEngram` appends for a fresh fact inside
`addMemory` (proof shorthand). -/
def freshEngram (input : EngramCreateInput) (f : String) (st0 : Strand)
    (embV : List ℚ) (hashV : String) (now : ℤ) (nextId : ℕ) : Engram :=
  { id := "engram-" ++ toString nextId, ownerId := input.ownerId, content := f,
    contentHash := hashV, strand := input.strand.getD st0,
    tags := input.tags.getD [], metadata := input.metadata.getD [],
    embedding := embV, signal := input.signal.getD (1/2),
    pulseRate := input.pulseRate.getD (1/10), accessCount := 0, version := 1,
    createdAt := now, updatedAt := now, lastAccessedAt := now }

/-- First ingestion of a single extracted fact for a fresh owner: one
engram is created and appended. -/
theorem addMemory_fresh_single (extract : String → ExtractionResult)
    (embed : String → List ℚ) (hash : String → String) (sq : ℚ → ℚ)
    (input : EngramCreateInput) (now : ℤ) (s : StoreState)
    (f : String) (st0 : Strand) (tfs : List TemporalFact)
    (hext : extract input.content = ⟨[f], st0, tfs⟩)
    (hfresh : ∀ e ∈ s.engrams, e.ownerId ≠ input.ownerId) :
    (MemoryService.addMemory extract embed hash sq input now s).1 =
      [freshEngram input f st0 (embed f) (hash f) now s.nextId] ∧
    (MemoryService.addMemory extract embed hash sq input now s).2.engrams =
      s.engrams ++ [freshEngram input f st0 (embed f) (hash f) now s.nextId] := by
  have hdup := checkDuplicate_none_of_fresh sq hash input.ownerId f (embed f) s hfresh
  unfold MemoryService.addMemory
  rw [hext]
  simp only [List.length_cons, List.length_nil]
  rw [if_neg (by simp)]
  simp only [List.foldl_cons, List.foldl_nil, hdup]
  simp only [SqliteStore.createEngram, List.length_cons, List.length_nil, List.nil_append]
  rw [if_neg (by norm_num)]
  constructor
  · simp [freshEngram]
  · rw [recordFacts_fold_engrams]
    simp [freshEngram]

/-- Ingestion of a single extracted fact that deduplicates: the existing
engram is returned and reinforced-and-stamped, nothing is created. -/
theorem addMemory_dup_single (extract : String → ExtractionResult)
    (embed : String → List ℚ) (hash : String → String) (sq : ℚ → ℚ)
    (input : EngramCreateInput) (now : ℤ) (s : StoreState)
    (f : String) (st0 : Strand) (tfs : List TemporalFact) (e1 : Engram)
    (hext : extract input.content = ⟨[f], st0, tfs⟩)
    (hdup : DeduplicationService.checkDuplicate sq hash input.ownerId f (embed f) s
      = some e1) :
    (MemoryService.addMemory extract embed hash sq input now s).1 = [e1] ∧
    (MemoryService.addMemory extract embed hash sq input now s).2.engrams =
      (SqliteStore.recordAccess e1.id now
        (SqliteStore.reinforceEngram e1.id (1/10) now s).2).engrams := by
  unfold MemoryService.addMemory
  rw [hext]
  simp only [List.length_cons, List.length_nil]
  rw [if_neg (by simp)]
  simp only [List.foldl_cons, List.foldl_nil, hdup]
  simp only [List.length_cons, List.length_nil, List.nil_append]
  rw [if_neg (by norm_num)]
  exact ⟨by trivial, by rw [recordFacts_fold_engrams]; rfl⟩

/-- **C6.** Adding the same content twice for the same owner (with a
deterministic extractor yielding a single fact, deterministic embedder
and hash, and an owner with no prior engrams): the first call stores
exactly one engram; the second call hash-detects the duplicate, returns
that same engram instead of creating one (the owner still holds exactly
one engram), and reinforces it with boost 0.1 — its stored signal
becomes `min(signal + 0.1, 1)`, a strict increase whenever the signal
was below 1.0. -/
theorem c6_addMemory_idempotent_reinforces (extract : String → ExtractionResult)
    (embed : String → List ℚ) (hash : String → String) (sq : ℚ → ℚ)
    (input : EngramCreateInput) (now1 now2 : ℤ) (s : StoreState)
    (f : String) (st0 : Strand) (tfs : List TemporalFact)
    (hext : extract input.content = ⟨[f], st0, tfs⟩)
    (hfresh : ∀ e ∈ s.engrams, e.ownerId ≠ input.ownerId)
    (hid : ∀ e ∈ s.engrams, e.id ≠ "engram-" ++ toString s.nextId) :
    ∃ e1 : Engram,
      (MemoryService.addMemory extract embed hash sq input now1 s).1 = [e1] ∧
      ((MemoryService.addMemory extract embed hash sq input now1 s).2.engrams.filter
        (fun e => e.ownerId = input.ownerId)).length = 1 ∧
      e1.signal = input.signal.getD (1/2) ∧
      (MemoryService.addMemory extract embed hash sq input now2
        (MemoryService.addMemory extract embed hash sq input now1 s).2).1 = [e1] ∧
      ((MemoryService.addMemory extract embed hash sq input now2
        (MemoryService.addMemory extract embed hash sq input now1 s).2).2.engrams.filter
        (fun e => e.ownerId = input.ownerId)).length = 1 ∧
      SqliteStore.getEngram e1.id
        (MemoryService.addMemory extract embed hash sq input now2
          (MemoryService.addMemory extract embed hash sq input now1 s).2).2 =
        some { e1 with signal := min (e1.signal + 1/10) 1, updatedAt := now2,
                       accessCount := e1.accessCount + 1, lastAccessedAt := now2 } ∧
      (e1.signal < 1 → e1.signal < min (e1.signal + 1/10) 1) := by
  obtain ⟨hr1, hr1e⟩ := addMemory_fresh_single extract embed hash sq input now1 s
    f st0 tfs hext hfresh
  refine ⟨freshEngram input f st0 (embed f) (hash f) now1 s.nextId, hr1, ?_, rfl, ?_⟩
  case refine_1 =>
    rw [hr1e, List.filter_append]
    have hpre : s.engrams.filter (fun e => decide (e.ownerId = input.ownerId)) = [] := by
      rw [List.filter_eq_nil_iff]
      intro e he
      simp only [decide_eq_true_eq]
      exact hfresh e he
    rw [hpre]
    simp [freshEngram]
  case refine_2 =>
    have hdup2 : DeduplicationService.checkDuplicate sq hash input.ownerId f (embed f)
        (MemoryService.addMemory extract embed hash sq input now1 s).2
        = some (freshEngram input f st0 (embed f) (hash f) now1 s.nextId) := by
      unfold DeduplicationService.checkDuplicate
      have hfind : SqliteStore.findByContentHash input.ownerId (hash f)
          (MemoryService.addMemory extract embed hash sq input now1 s).2
          = some (freshEngram input f st0 (embed f) (hash f) now1 s.nextId) := by
        unfold SqliteStore.findByContentHash
        rw [hr1e, List.find?_append]
        have hpre : s.engrams.find?
            (fun e => decide (e.ownerId = input.ownerId ∧ e.contentHash = hash f)) = none := by
          rw [List.find?_eq_none]
          intro e he
          simp only [decide_eq_true_eq]
          rintro ⟨h1, -⟩
          exact hfresh e he h1
        rw [hpre, Option.none_or]
        simp [freshEngram]
      rw [hfind]
    obtain ⟨hr2, hr2e⟩ := addMemory_dup_single extract embed hash sq input now2
      (MemoryService.addMemory extract embed hash sq input now1 s).2
      f st0 tfs (freshEngram input f st0 (embed f) (hash f) now1 s.nextId) hext hdup2
    have hstamped : (MemoryService.addMemory extract embed hash sq input now2
        (MemoryService.addMemory extract embed hash sq input now1 s).2).2.engrams =
        s.engrams ++ [{ freshEngram input f st0 (embed f) (hash f) now1 s.nextId with
          signal := min ((freshEngram input f st0 (embed f) (hash f) now1 s.nextId).signal + 1/10) 1,
          updatedAt := now2,
          accessCount := (freshEngram input f st0 (embed f) (hash f) now1 s.nextId).accessCount + 1,
          lastAccessedAt := now2 }] := by
      rw [hr2e]
      simp only [SqliteStore.recordAccess, SqliteStore.reinforceEngram, hr1e,
        List.map_append]
      have hpre : ∀ g : Engram → Engram,
          (∀ e ∈ s.engrams, g e = e) → s.engrams.map g = s.engrams := by
        intro g hg
        rw [List.map_congr_left hg]
        exact List.map_id _
      rw [hpre _ (fun e he => by
        simp [show ¬ (e.id = (freshEngram input f st0 (embed f) (hash f) now1 s.nextId).id)
          from hid e he])]
      rw [hpre _ (fun e he => by
        simp [show ¬ (e.id = (freshEngram input f st0 (embed f) (hash f) now1 s.nextId).id)
          from hid e he])]
      simp [freshEngram]
    refine ⟨hr2, ?_, ?_, ?_⟩
    · rw [hstamped, List.filter_append]
      have hpre : s.engrams.filter (fun e => decide (e.ownerId = input.ownerId)) = [] := by
        rw [List.filter_eq_nil_iff]
        intro e he
        simp only [decide_eq_true_eq]
        exact hfresh e he
      rw [hpre]
      simp [freshEngram]
    · unfold SqliteStore.getEngram
      rw [hstamped, List.find?_append]
      have hpre : s.engrams.find?
          (fun e => decide (e.id = (freshEngram input f st0 (embed f) (hash f) now1 s.nextId).id))
          = none := by
        rw [List.find?_eq_none]
        intro e he
        simp only [decide_eq_true_eq]
        exact hid e he
      rw [hpre, Option.none_or]
      simp [freshEngram]
    · intro hlt
      rw [lt_min_iff]
      exact ⟨by linarith, hlt⟩

/-- Witness for `c6_addMemory_idempotent_reinforces` on the empty store:
the signal goes 0.5 → 0.6. -/
theorem c6_addMemory_idempotent_reinforces_witness :
    ∃ e1 : Engram,
      (MemoryService.addMemory (fun _ => ⟨["hello world"], .general, []⟩)
        (fun _ => [1]) (fun t => t) (fun _ => 1)
        { ownerId := "u", content := "hello world" } 0 StoreState.empty).1 = [e1] ∧
      ((MemoryService.addMemory (fun _ => ⟨["hello world"], .general, []⟩)
        (fun _ => [1]) (fun t => t) (fun _ => 1)
        { ownerId := "u", content := "hello world" } 0 StoreState.empty).2.engrams.filter
        (fun e => e.ownerId = "u")).length = 1 ∧
      e1.signal = 1/2 ∧
      (e1.signal < 1 → e1.signal < min (e1.signal + 1/10) 1) := by
  obtain ⟨e1, h1, h2, h3, _, _, _, h7⟩ := c6_addMemory_idempotent_reinforces
    (fun _ => ⟨["hello world"], .general, []⟩) (fun _ => [1]) (fun t => t) (fun _ => 1)
    { ownerId := "u", content := "hello world" } 0 1 StoreState.empty
    "hello world" .general [] rfl
    (by intro e he; simp [StoreState.empty] at he)
    (by intro e he; simp [StoreState.empty] at he)
  exact ⟨e1, h1, h2, h3, h7⟩

/-! ## C3 — the final-score identity and range

Bound lemmas for each fusion component, then the per-hit theorem over
both the hybrid and the keyword-only fallback paths. -/

/-- A fold with `min` only descends. -/
theorem foldl_min_le_init (l : List ℚ) (a : ℚ) : l.foldl min a ≤ a := by
  induction l generalizing a with
  | nil => exact le_refl a
  | cons x t ih => exact le_trans (ih (min a x)) (min_le_left a x)

/-- The fold with `min` is below every member. -/
theorem foldl_min_le_mem {l : List ℚ} {x : ℚ} (hx : x ∈ l) (a : ℚ) :
    l.foldl min a ≤ x := by
  induction l generalizing a with
  | nil => cases hx
  | cons y t ih =>
    rcases List.mem_cons.mp hx with rfl | hx'
    · exact le_trans (foldl_min_le_init t (min a x)) (min_le_right a x)
    · exact ih hx' (min a y)

/-- A fold with `max` only ascends. -/
theorem le_foldl_max_init (l : List ℚ) (a : ℚ) : a ≤ l.foldl max a := by
  induction l generalizing a with
  | nil => exact le_refl a
  | cons x t ih => exact le_trans (le_max_left a x) (ih (max a x))

/-- The fold with `max` is above every member. -/
theorem le_foldl_max_mem {l : List ℚ} {x : ℚ} (hx : x ∈ l) (a : ℚ) :
    x ≤ l.foldl max a := by
  induction l generalizing a with
  | nil => cases hx
  | cons y t ih =>
    rcases List.mem_cons.mp hx with rfl | hx'
    · exact le_trans (le_max_right a x) (le_foldl_max_init t (max a x))
    · exact ih hx' (max a y)

/-- `Math.min(...)` is below every member. -/
theorem listMin_le {l : List ℚ} {x : ℚ} (hx : x ∈ l) : listMin l ≤ x := by
  cases l with
  | nil => cases hx
  | cons y t =>
    rcases List.mem_cons.mp hx with rfl | hx'
    · exact foldl_min_le_init t x
    · exact foldl_min_le_mem hx' y

/-- `Math.max(...)` is above every member. -/
theorem le_listMax {l : List ℚ} {x : ℚ} (hx : x ∈ l) : x ≤ listMax l := by
  cases l with
  | nil => cases hx
  | cons y t =>
    rcases List.mem_cons.mp hx with rfl | hx'
    · exact le_foldl_max_init t x
    · exact le_foldl_max_mem hx' y

/-- Every member of a min-max normalized vector lies in [0, 1]. -/
theorem minMaxNormalize_mem {l : List ℚ} {x : ℚ} (hx : x ∈ minMaxNormalize l) :
    0 ≤ x ∧ x ≤ 1 := by
  cases l with
  | nil => cases hx
  | cons a l1 =>
    cases l1 with
    | nil =>
      simp only [minMaxNormalize, List.mem_singleton] at hx
      subst hx
      by_cases ha : a > 0 <;> simp [ha]
    | cons b l2 =>
      simp only [minMaxNormalize] at hx
      by_cases hr : listMax (a :: b :: l2) - listMin (a :: b :: l2) = 0
      · rw [if_pos hr] at hx
        rcases List.mem_map.mp hx with ⟨v, -, rfl⟩
        norm_num
      · rw [if_neg hr] at hx
        rcases List.mem_map.mp hx with ⟨v, hv, rfl⟩
        have hmn := listMin_le hv
        have hmx := le_listMax hv
        have hmm : listMin (a :: b :: l2) ≤ listMax (a :: b :: l2) :=
          le_trans (listMin_le (List.mem_cons_self a (b :: l2)))
            (le_listMax (List.mem_cons_self a (b :: l2)))
        have hrpos : 0 < listMax (a :: b :: l2) - listMin (a :: b :: l2) :=
          lt_of_le_of_ne (by linarith) (Ne.symm hr)
        constructor
        · exact div_nonneg (by linarith) (le_of_lt hrpos)
        · rw [div_le_one hrpos]
          linarith

/-- Indexed (defaulted) access into a min-max normalized vector lies in
[0, 1]. -/
theorem minMaxNormalize_getD_bound (l : List ℚ) (i : ℕ) :
    0 ≤ (minMaxNormalize l).getD i 0 ∧ (minMaxNormalize l).getD i 0 ≤ 1 := by
  by_cases hi : i < (minMaxNormalize l).length
  · rw [List.getD_eq_getElem _ _ hi]
    exact minMaxNormalize_mem (List.getElem_mem hi)
  · rw [List.getD_eq_default _ _ (le_of_not_lt hi)]
    norm_num

/-- `clamp v 0 1` lies in [0, 1]. -/
theorem clamp01_bound (v : ℚ) : 0 ≤ clamp v 0 1 ∧ clamp v 0 1 ≤ 1 := by
  unfold clamp
  constructor
  · exact le_min (le_max_right v 0) (by norm_num)
  · exact min_le_right _ 1

/-- The recency boost lies in [0, 0.1] for a non-negative day count and
an exponential bounded on non-positive arguments. -/
theorem recencyBoost_bound (ex : ℚ → ℚ) (d : ℚ)
    (hex : ∀ x : ℚ, x ≤ 0 → 0 ≤ ex x ∧ ex x ≤ 1) (hd : 0 ≤ d) :
    0 ≤ RetrievalPipeline.recencyBoostOf DEFAULT_CONFIG ex d ∧
      RetrievalPipeline.recencyBoostOf DEFAULT_CONFIG ex d ≤ 10/100 := by
  unfold RetrievalPipeline.recencyBoostOf
  have harg : -(d / DEFAULT_CONFIG.recencyHalfLifeDays) ≤ 0 := by
    simp only [DEFAULT_CONFIG]
    exact neg_nonpos.mpr (div_nonneg hd (by norm_num))
  have he := hex _ harg
  have hc := clamp01_bound (1 - d / DEFAULT_CONFIG.recencyMaxDays)
  simp only [DEFAULT_CONFIG] at he hc ⊢
  constructor
  · exact mul_nonneg (mul_nonneg (by norm_num) he.1) hc.1
  · nlinarith [he.1, he.2, hc.1, hc.2]

/-- A fold preserves an invariant established at the start. -/
theorem foldl_preserves {P : β → Prop} (f : β → α → β) (l : List α) (b : β)
    (hb : P b) (hf : ∀ b' a, a ∈ l → P b' → P (f b' a)) : P (l.foldl f b) := by
  induction l generalizing b with
  | nil => exact hb
  | cons x t ih =>
    exact ih (f b x) (hf b x (List.mem_cons_self x t) hb)
      (fun b' a ha hb' => hf b' a (List.mem_cons_of_mem x ha) hb')

/-- Boost range [0, 1] for one BFS generation: expansions and the next
frontier inherit it from the current frontier. -/
theorem bfsGeneration_bound (getFrom : String → List Synapse) (decayFactor : ℚ)
    (maxDepth : ℕ) (frontier : List SynapseExpansion) (visited : List String)
    (hw : ∀ id : String, ∀ sy ∈ getFrom id, 0 ≤ sy.weight ∧ sy.weight ≤ 1)
    (hdec : 0 ≤ decayFactor ∧ decayFactor ≤ 1)
    (hfr : ∀ n ∈ frontier, 0 ≤ n.boost ∧ n.boost ≤ 1) :
    (∀ e ∈ (RetrievalPipeline.bfsGeneration getFrom decayFactor maxDepth frontier visited).1,
      0 ≤ e.boost ∧ e.boost ≤ 1) ∧
    (∀ e ∈ (RetrievalPipeline.bfsGeneration getFrom decayFactor maxDepth frontier visited).2.2,
      0 ≤ e.boost ∧ e.boost ≤ 1) := by
  unfold RetrievalPipeline.bfsGeneration
  refine foldl_preserves
    (P := fun acc : List SynapseExpansion × List String × List SynapseExpansion =>
      (∀ e ∈ acc.1, 0 ≤ e.boost ∧ e.boost ≤ 1) ∧
      (∀ e ∈ acc.2.2, 0 ≤ e.boost ∧ e.boost ≤ 1))
    _ frontier ([], visited, [])
    ⟨(by intro e he; cases he), (by intro e he; cases he)⟩ ?_
  intro acc node hnode hacc
  by_cases hdep : node.depth ≥ maxDepth
  · simpa [hdep] using hacc
  · simp only [hdep, if_false]
    refine foldl_preserves
      (P := fun acc : List SynapseExpansion × List String × List SynapseExpansion =>
        (∀ e ∈ acc.1, 0 ≤ e.boost ∧ e.boost ≤ 1) ∧
        (∀ e ∈ acc.2.2, 0 ≤ e.boost ∧ e.boost ≤ 1))
      _ (getFrom node.engramId) acc hacc ?_
    intro acc2 syn hsyn hacc2
    by_cases hvis : syn.targetId ∈ acc2.2.1
    · rw [if_pos (by simpa using hvis)]
      exact hacc2
    · rw [if_neg (by simpa using hvis)]
      have hb := hfr node hnode
      have hwt := hw node.engramId syn hsyn
      have hboost : 0 ≤ node.boost * syn.weight * decayFactor ∧
          node.boost * syn.weight * decayFactor ≤ 1 := by
        constructor
        · exact mul_nonneg (mul_nonneg hb.1 hwt.1) hdec.1
        · have h1 : node.boost * syn.weight ≤ 1 := by
            nlinarith [hb.1, hb.2, hwt.1, hwt.2]
          calc node.boost * syn.weight * decayFactor
              ≤ 1 * decayFactor := by
                exact mul_le_mul_of_nonneg_right h1 hdec.1
            _ = decayFactor := one_mul _
            _ ≤ 1 := hdec.2
      constructor
      · intro e he
        rcases List.mem_append.mp he with he' | he'
        · exact hacc2.1 e he'
        · rcases List.mem_singleton.mp he' with rfl
          exact hboost
      · intro e he
        rcases List.mem_append.mp he with he' | he'
        · exact hacc2.2 e he'
        · rcases List.mem_singleton.mp he' with rfl
          exact hboost

/-- Boost range [0, 1] for the whole BFS loop. -/
theorem bfsLoop_bound (getFrom : String → List Synapse) (decayFactor : ℚ)
    (maxDepth : ℕ)
    (hw : ∀ id : String, ∀ sy ∈ getFrom id, 0 ≤ sy.weight ∧ sy.weight ≤ 1)
    (hdec : 0 ≤ decayFactor ∧ decayFactor ≤ 1) :
    ∀ (fuel : ℕ) (frontier : List SynapseExpansion) (visited : List String),
      (∀ n ∈ frontier, 0 ≤ n.boost ∧ n.boost ≤ 1) →
      ∀ e ∈ RetrievalPipeline.bfsLoop getFrom decayFactor maxDepth fuel frontier visited,
        0 ≤ e.boost ∧ e.boost ≤ 1 := by
  intro fuel
  induction fuel with
  | zero => intro frontier visited _ e he; cases he
  | succ n ih =>
    intro frontier visited hfr e he
    rw [RetrievalPipeline.bfsLoop] at he
    by_cases hf : frontier.length = 0
    · rw [if_pos hf] at he; cases he
    · rw [if_neg hf] at he
      have hg := bfsGeneration_bound getFrom decayFactor maxDepth frontier visited
        hw hdec hfr
      rcases List.mem_append.mp he with he' | he'
      · exact hg.1 e he'
      · exact ih _ _ hg.2 e he'

/-- Every boost emitted by `expandSynapses` lies in [0, 1]. -/
theorem expandSynapses_bound (getFrom : String → List Synapse)
    (seedIds : List String)
    (hw : ∀ id : String, ∀ sy ∈ getFrom id, 0 ≤ sy.weight ∧ sy.weight ≤ 1) :
    ∀ e ∈ RetrievalPipeline.expandSynapses getFrom DEFAULT_CONFIG seedIds,
      0 ≤ e.boost ∧ e.boost ≤ 1 := by
  unfold RetrievalPipeline.expandSynapses
  refine bfsLoop_bound getFrom DEFAULT_CONFIG.synapseDecay DEFAULT_CONFIG.synapseDepth
    hw (by constructor <;> norm_num [DEFAULT_CONFIG]) _ _ seedIds ?_
  intro n hn
  rcases List.mem_map.mp hn with ⟨id, -, rfl⟩
  norm_num

/-- The max-merged synapse-boost map holds only values in [0, 1]. -/
theorem synBoostsMap_bound (exps : List SynapseExpansion)
    (hexps : ∀ e ∈ exps, 0 ≤ e.boost ∧ e.boost ≤ 1) :
    ∀ k : String,
      0 ≤ (mapGetQ (exps.foldl
        (fun m e => mapSetQ m e.engramId (max ((mapGetQ m e.engramId).getD 0) e.boost)) []) k).getD 0
      ∧ (mapGetQ (exps.foldl
        (fun m e => mapSetQ m e.engramId (max ((mapGetQ m e.engramId).getD 0) e.boost)) []) k).getD 0 ≤ 1 := by
  refine foldl_preserves
    (P := fun m : List (String × ℚ) =>
      ∀ k : String, 0 ≤ (mapGetQ m k).getD 0 ∧ (mapGetQ m k).getD 0 ≤ 1)
    _ exps [] (by intro k; simp [mapGetQ]) ?_
  intro m e he hm k
  by_cases hk : k = e.engramId
  · subst hk
    rw [mapGetQ_set_self]
    have h1 := hm e.engramId
    have h2 := hexps e he
    constructor
    · exact le_max_of_le_left h1.1
    · exact max_le h1.2 h2.2
  · rw [mapGetQ_set_ne _ _ _ _ hk]
    exact hm k

/-- Days since access are non-negative when the stamp is in the past. -/
theorem daysSinceAccess_nonneg (now : ℤ) (e : Engram)
    (h : e.lastAccessedAt ≤ now) : 0 ≤ RetrievalPipeline.daysSinceAccess now e := by
  unfold RetrievalPipeline.daysSinceAccess
  have : (e.lastAccessedAt : ℚ) ≤ (now : ℚ) := by exact_mod_cast h
  have hnum : 0 ≤ (now : ℚ) - (e.lastAccessedAt : ℚ) := by linarith
  positivity

/-- Trace identity and range for one fallback-path hit. -/
theorem fallbackHit_trace_bound (ex : ℚ → ℚ) (allEngrams : List Engram)
    (now : ℤ) (maxBm25 : ℚ) (kh : BM25Result)
    (hex : ∀ x : ℚ, x ≤ 0 → 0 ≤ ex x ∧ ex x ≤ 1)
    (hsig2 : ∀ e ∈ allEngrams, 0 ≤ e.signal ∧ e.signal ≤ 1)
    (hacc2 : ∀ e ∈ allEngrams, e.lastAccessedAt ≤ now)
    (hid : ∃ e ∈ allEngrams, e.id = kh.id)
    (hkpos : 0 < kh.score) (hkmax : kh.score ≤ maxBm25) :
    (RetrievalPipeline.fallbackHit DEFAULT_CONFIG ex allEngrams now maxBm25 kh).trace.finalScore
      = 30/100 * (RetrievalPipeline.fallbackHit DEFAULT_CONFIG ex allEngrams now maxBm25 kh).trace.vectorScore
        + 30/100 * (RetrievalPipeline.fallbackHit DEFAULT_CONFIG ex allEngrams now maxBm25 kh).trace.keywordScore
        + (RetrievalPipeline.fallbackHit DEFAULT_CONFIG ex allEngrams now maxBm25 kh).trace.recencyBoost
        + (RetrievalPipeline.fallbackHit DEFAULT_CONFIG ex allEngrams now maxBm25 kh).trace.signalBoost
        + (RetrievalPipeline.fallbackHit DEFAULT_CONFIG ex allEngrams now maxBm25 kh).trace.synapseBoost
    ∧ 0 ≤ (RetrievalPipeline.fallbackHit DEFAULT_CONFIG ex allEngrams now maxBm25 kh).trace.finalScore
    ∧ (RetrievalPipeline.fallbackHit DEFAULT_CONFIG ex allEngrams now maxBm25 kh).trace.finalScore ≤ 1 := by
  have hmaxpos : 0 < maxBm25 := lt_of_lt_of_le hkpos hkmax
  have hfind : (allEngrams.find? (fun e => e.id = kh.id)).isSome := by
    rw [List.find?_isSome]
    rcases hid with ⟨e0, he0, heid⟩
    exact ⟨e0, he0, by simp [heid]⟩
  cases hfe : allEngrams.find? (fun e => e.id = kh.id) with
  | none => rw [hfe] at hfind; cases hfind
  | some e' =>
    have he' : e' ∈ allEngrams := List.mem_of_find?_eq_some hfe
    have hes := hsig2 e' he'
    have hea := hacc2 e' he'
    have hrb := recencyBoost_bound ex (RetrievalPipeline.daysSinceAccess now e')
      hex (daysSinceAccess_nonneg now e' hea)
    have hkwb : 0 ≤ kh.score / maxBm25 ∧ kh.score / maxBm25 ≤ 1 := by
      constructor
      · exact div_nonneg (le_of_lt hkpos) (le_of_lt hmaxpos)
      · rw [div_le_one hmaxpos]; exact hkmax
    simp only [RetrievalPipeline.fallbackHit, hfe, Option.getD_some, if_pos hmaxpos]
    simp only [DEFAULT_CONFIG] at hrb ⊢
    refine ⟨by ring_nf, ?_, ?_⟩
    · nlinarith [hkwb.1, hrb.1, hes.1]
    · nlinarith [hkwb.2, hrb.2, hes.2, hkwb.1, hrb.1, hes.1]

/-- Trace identity and range for one hybrid-path hit. -/
theorem hybridHit_trace_bound (ex : ℚ → ℚ)
    (normalizedVector normalizedKeyword : List ℚ)
    (synapseBoosts : List (String × ℚ)) (now : ℤ) (p : ℕ × (Engram × ℚ))
    (hex : ∀ x : ℚ, x ≤ 0 → 0 ≤ ex x ∧ ex x ≤ 1)
    (hnv : ∀ i : ℕ, 0 ≤ normalizedVector.getD i 0 ∧ normalizedVector.getD i 0 ≤ 1)
    (hnk : ∀ i : ℕ, 0 ≤ normalizedKeyword.getD i 0 ∧ normalizedKeyword.getD i 0 ≤ 1)
    (hsb : ∀ k : String,
      0 ≤ (mapGetQ synapseBoosts k).getD 0 ∧ (mapGetQ synapseBoosts k).getD 0 ≤ 1)
    (hps : 0 ≤ p.2.1.signal ∧ p.2.1.signal ≤ 1)
    (hpa : p.2.1.lastAccessedAt ≤ now) :
    (RetrievalPipeline.hybridHit DEFAULT_CONFIG ex normalizedVector normalizedKeyword
        synapseBoosts now p).trace.finalScore
      = 30/100 * (RetrievalPipeline.hybridHit DEFAULT_CONFIG ex normalizedVector
          normalizedKeyword synapseBoosts now p).trace.vectorScore
        + 30/100 * (RetrievalPipeline.hybridHit DEFAULT_CONFIG ex normalizedVector
          normalizedKeyword synapseBoosts now p).trace.keywordScore
        + (RetrievalPipeline.hybridHit DEFAULT_CONFIG ex normalizedVector
          normalizedKeyword synapseBoosts now p).trace.recencyBoost
        + (RetrievalPipeline.hybridHit DEFAULT_CONFIG ex normalizedVector
          normalizedKeyword synapseBoosts now p).trace.signalBoost
        + (RetrievalPipeline.hybridHit DEFAULT_CONFIG ex normalizedVector
          normalizedKeyword synapseBoosts now p).trace.synapseBoost
    ∧ 0 ≤ (RetrievalPipeline.hybridHit DEFAULT_CONFIG ex normalizedVector
        normalizedKeyword synapseBoosts now p).trace.finalScore
    ∧ (RetrievalPipeline.hybridHit DEFAULT_CONFIG ex normalizedVector
        normalizedKeyword synapseBoosts now p).trace.finalScore ≤ 1 := by
  have hv := hnv p.1
  have hk := hnk p.1
  have hy := hsb p.2.1.id
  have hrb := recencyBoost_bound ex (RetrievalPipeline.daysSinceAccess now p.2.1)
    hex (daysSinceAccess_nonneg now p.2.1 hpa)
  simp only [RetrievalPipeline.hybridHit]
  simp only [DEFAULT_CONFIG] at hrb ⊢
  refine ⟨by ring_nf, ?_, ?_⟩
  · nlinarith [hv.1, hk.1, hrb.1, hps.1, hy.1]
  · nlinarith [hv.2, hk.2, hrb.2, hps.2, hy.2, hv.1, hk.1, hrb.1, hps.1, hy.1]

/-- Trace identity and range for everything the hybrid else-branch emits
(sorting, final-score filtering and trimming only discard or reorder
hits). -/
theorem hybrid_branch_bound (ex : ℚ → ℚ) (flt : List (Engram × ℚ))
    (NV NK : List ℚ) (SB : List (String × ℚ)) (now : ℤ) (limit : ℕ) (minFinal : ℚ)
    (hex : ∀ x : ℚ, x ≤ 0 → 0 ≤ ex x ∧ ex x ≤ 1)
    (hnv : ∀ i : ℕ, 0 ≤ NV.getD i 0 ∧ NV.getD i 0 ≤ 1)
    (hnk : ∀ i : ℕ, 0 ≤ NK.getD i 0 ∧ NK.getD i 0 ≤ 1)
    (hsb : ∀ k : String, 0 ≤ (mapGetQ SB k).getD 0 ∧ (mapGetQ SB k).getD 0 ≤ 1)
    (hsg : ∀ p ∈ flt, 0 ≤ p.1.signal ∧ p.1.signal ≤ 1)
    (hac : ∀ p ∈ flt, p.1.lastAccessedAt ≤ now) :
    ∀ h ∈ ((if minFinal > 0
        then ((flt.enum.map
          (RetrievalPipeline.hybridHit DEFAULT_CONFIG ex NV NK SB now)).mergeSort
          (fun a b => a.trace.finalScore ≥ b.trace.finalScore)).filter
          (fun h => h.trace.finalScore ≥ minFinal)
        else (flt.enum.map
          (RetrievalPipeline.hybridHit DEFAULT_CONFIG ex NV NK SB now)).mergeSort
          (fun a b => a.trace.finalScore ≥ b.trace.finalScore)).take limit),
      h.trace.finalScore = 30/100 * h.trace.vectorScore
          + 30/100 * h.trace.keywordScore + h.trace.recencyBoost
          + h.trace.signalBoost + h.trace.synapseBoost
        ∧ 0 ≤ h.trace.finalScore ∧ h.trace.finalScore ≤ 1 := by
  intro h hh
  have hsorted := List.mem_of_mem_take hh
  have hscored : h ∈ flt.enum.map
      (RetrievalPipeline.hybridHit DEFAULT_CONFIG ex NV NK SB now) := by
    by_cases hmf : minFinal > 0
    · rw [if_pos hmf] at hsorted
      exact (List.mergeSort_perm _ _).mem_iff.mp (List.mem_of_mem_filter hsorted)
    · rw [if_neg hmf] at hsorted
      exact (List.mergeSort_perm _ _).mem_iff.mp hsorted
  rcases List.mem_map.mp hscored with ⟨p, hp, rfl⟩
  have hvr : p.2 ∈ flt := List.get?_mem (List.mem_enum_iff_get?.mp hp)
  exact hybridHit_trace_bound ex NV NK SB now p hex hnv hnk hsb
    (hsg _ hvr) (hac _ hvr)

/-- **C3.** For every hit of `RetrievalPipeline.search` — hybrid path and
keyword-only fallback path alike — the trace satisfies
`finalScore = 0.30·vectorScore + 0.30·keywordScore + recencyBoost +
signalBoost + synapseBoost` *exactly* (hence within 1e-9), and
`finalScore ∈ [0, 1]`, under the engine's own data invariants: signals
in [0, 1], synapse weights in [0, 1], access stamps not in the future,
and an exponential bounded by [0, 1] on non-positive arguments. -/
theorem c3_search_hit_trace_invariant (ex lg : ℚ → ℚ) (q : SearchQuery)
    (vectorResults : List (Engram × ℚ)) (allEngrams : List Engram)
    (getFrom : String → List Synapse) (now : ℤ)
    (hex : ∀ x : ℚ, x ≤ 0 → 0 ≤ ex x ∧ ex x ≤ 1)
    (hsig : ∀ p ∈ vectorResults, 0 ≤ p.1.signal ∧ p.1.signal ≤ 1)
    (hacc : ∀ p ∈ vectorResults, p.1.lastAccessedAt ≤ now)
    (hsig2 : ∀ e ∈ allEngrams, 0 ≤ e.signal ∧ e.signal ≤ 1)
    (hacc2 : ∀ e ∈ allEngrams, e.lastAccessedAt ≤ now)
    (hw : ∀ id : String, ∀ sy ∈ getFrom id, 0 ≤ sy.weight ∧ sy.weight ≤ 1) :
    ∀ h ∈ RetrievalPipeline.searchHits DEFAULT_CONFIG ex lg q vectorResults
        allEngrams getFrom now,
      h.trace.finalScore = 30/100 * h.trace.vectorScore
          + 30/100 * h.trace.keywordScore + h.trace.recencyBoost
          + h.trace.signalBoost + h.trace.synapseBoost
        ∧ 0 ≤ h.trace.finalScore ∧ h.trace.finalScore ≤ 1 := by
  intro h hh
  unfold RetrievalPipeline.searchHits at hh
  by_cases hlen : (if (q.minScore.getD 0) > 0
      then vectorResults.filter (fun vr => vr.2 ≥ q.minScore.getD 0)
      else vectorResults).length = 0
  · rw [if_pos hlen] at hh
    by_cases hkz : ((BM25Scorer.score lg (3/2) (3/4) q.query
        (allEngrams.map (fun e => BM25Document.mk e.id e.content))).filter
        (fun r => r.score > 0)).length = 0
    · rw [if_pos hkz] at hh
      cases hh
    · rw [if_neg hkz] at hh
      rcases List.mem_map.mp hh with ⟨kh, hkh, rfl⟩
      have hkh2 : kh ∈ (BM25Scorer.score lg (3/2) (3/4) q.query
          (allEngrams.map (fun e => BM25Document.mk e.id e.content))).filter
          (fun r => r.score > 0) :=
        (List.mergeSort_perm _ _).mem_iff.mp (List.mem_of_mem_take hkh)
      have hkpos : 0 < kh.score := by
        have := (List.mem_filter.mp hkh2).2
        simpa using this
      have hkmax : kh.score ≤ listMax (((BM25Scorer.score lg (3/2) (3/4) q.query
          (allEngrams.map (fun e => BM25Document.mk e.id e.content))).filter
          (fun r => r.score > 0)).map (fun h => h.score)) :=
        le_listMax (List.mem_map_of_mem _ hkh2)
      have hid : ∃ e ∈ allEngrams, e.id = kh.id := by
        have hkbm : kh ∈ BM25Scorer.score lg (3/2) (3/4) q.query
            (allEngrams.map (fun e => BM25Document.mk e.id e.content)) :=
          List.mem_of_mem_filter hkh2
        rw [bm25_score_eq_okapi] at hkbm
        rcases List.mem_map.mp hkbm with ⟨d, hd, rfl⟩
        rcases List.mem_map.mp hd with ⟨e0, he0, rfl⟩
        exact ⟨e0, he0, by simp⟩
      exact fallbackHit_trace_bound ex allEngrams now _ kh hex hsig2 hacc2 hid
        hkpos hkmax
  · rw [if_neg hlen] at hh
    have hsub : ∀ p ∈ (if (q.minScore.getD 0) > 0
        then vectorResults.filter (fun vr => vr.2 ≥ q.minScore.getD 0)
        else vectorResults), p ∈ vectorResults := by
      intro p hp
      by_cases hm : (q.minScore.getD 0) > 0
      · rw [if_pos hm] at hp; exact List.mem_of_mem_filter hp
      · rw [if_neg hm] at hp; exact hp
    refine hybrid_branch_bound ex _ _ _ _ now _ _ hex
      (fun i => minMaxNormalize_getD_bound _ i)
      (fun i => minMaxNormalize_getD_bound _ i)
      ?_ (fun p hp => hsig p (hsub p hp)) (fun p hp => hacc p (hsub p hp)) h hh
    intro k
    by_cases hexp : q.expandSynapses ≠ some false
    · rw [if_pos hexp]
      exact synBoostsMap_bound _ (expandSynapses_bound getFrom _ hw) k
    · rw [if_neg hexp]
      simp [mapGetQ]

/-- A candidate engram for the search-trace witness. -/
def c3Engram : Engram :=
  { id := "engram-0", ownerId := "u", content := "green tea memory",
    contentHash := "h0", strand := .general, tags := [], metadata := [],
    embedding := [1], signal := 1/2, pulseRate := 1/10, accessCount := 0,
    version := 1, createdAt := 0, updatedAt := 0, lastAccessedAt := 0 }

/-- Witness for `c3_search_hit_trace_invariant` at a concrete one-candidate
search (constant exponential and logarithm). -/
theorem c3_search_hit_trace_invariant_witness :
    ((RetrievalPipeline.searchHits DEFAULT_CONFIG (fun _ => 1) (fun _ => 0)
        { ownerId := "u", query := "memory" } [(c3Engram, 1/2)] [] (fun _ => []) 0).map
      (fun h => decide (h.trace.finalScore = 30/100 * h.trace.vectorScore
          + 30/100 * h.trace.keywordScore + h.trace.recencyBoost
          + h.trace.signalBoost + h.trace.synapseBoost)
        && decide (0 ≤ h.trace.finalScore) && decide (h.trace.finalScore ≤ 1))).all
      (fun b => b) = true := by
  have H := c3_search_hit_trace_invariant (fun _ => 1) (fun _ => 0)
    { ownerId := "u", query := "memory" } [(c3Engram, 1/2)] [] (fun _ => []) 0
    (fun x _ => ⟨by norm_num, by norm_num⟩)
    (by intro p hp; rcases List.mem_singleton.mp hp with rfl; norm_num [c3Engram])
    (by intro p hp; rcases List.mem_singleton.mp hp with rfl; norm_num [c3Engram])
    (by intro e he; cases he)
    (by intro e he; cases he)
    (by intro id sy hsy; cases hsy)
  rw [List.all_eq_true]
  intro b hb
  rcases List.mem_map.mp hb with ⟨h, hh, rfl⟩
  have hres := H h hh
  simp only [Bool.and_eq_true, decide_eq_true_eq]
  exact ⟨⟨hres.1, hres.2.1⟩, hres.2.2⟩

end Hippocampus
